import Mathlib

/-!
Verification development for the TOC chapter extractor
(`cli_runner.py` and `toc_playwright.py`).

Strings are modelled as `List Char`.  Python's regex substitutions are
modelled by a generic left-to-right scanner `reSub` together with one
matcher per pattern; each matcher returns the replacement text and the
remainder of the input after the (greedy, leftmost) match, exactly as
`re.sub` consumes it.  Whitespace is Python's ASCII `\s` class.
-/

namespace Toc

/-- Python's `\s` class / `str.strip()` whitespace, restricted to ASCII. -/
def isSpaceC (c : Char) : Bool :=
  c = ' ' || c = '\t' || c = '\n' || c = '\r' || c = '\x0b' || c = '\x0c'

/-- Python's `\w` class restricted to ASCII: letters, digits and underscore. -/
def isWordC (c : Char) : Bool :=
  c.isAlphanum || c = '_'

/-- One pass of `re.sub pat repl`, fuelled scan: at each position, if the
matcher fires, emit the replacement and continue after the consumed text
(the replacement is not rescanned); otherwise emit the character and advance.
The matcher consumes at least one character whenever it fires, so fuel
`s.length` always suffices. -/
def reSubF (m : List Char → Option (List Char × List Char)) : Nat → List Char → List Char
  | 0, s => s
  | _ + 1, [] => []
  | n + 1, c :: cs =>
    match m (c :: cs) with
    | some (r, rest) => r ++ reSubF m n rest
    | none => c :: reSubF m n cs

/-- `re.sub` over a whole string. -/
def reSub (m : List Char → Option (List Char × List Char)) (s : List Char) : List Char :=
  reSubF m s.length s

/-- Matcher for `\s+\n` (replaced by `"\n"`).  A match at a position exists
iff the maximal whitespace prefix `w` contains a newline at index ≥ 1
(greedy `\s+` backtracks so that the final `\n` is the last newline of `w`);
the match consumes `w` up to and including that last newline. -/
def matchWsNl (s : List Char) : Option (List Char × List Char) :=
  let w := s.takeWhile isSpaceC
  let k := (w.reverse.takeWhile (fun c => c ≠ '\n')).length
  if '\n' ∈ w.drop 1 then some (['\n'], s.drop (w.length - k)) else none

/-- Matcher for `\n\s+` (replaced by `"\n"`): a newline followed by at least
one whitespace character; greedy `\s+` consumes the maximal whitespace run. -/
def matchNlWs (s : List Char) : Option (List Char × List Char) :=
  match s with
  | c :: d :: t =>
    if c = '\n' ∧ isSpaceC d = true then some (['\n'], (d :: t).dropWhile isSpaceC) else none
  | _ => none

/-- Matcher for `\n{3,}` (replaced by `"\n\n"`): three or more newlines;
greedy, consumes the whole newline run. -/
def matchNl3 (s : List Char) : Option (List Char × List Char) :=
  match s with
  | c1 :: c2 :: c3 :: t =>
    if c1 = '\n' ∧ c2 = '\n' ∧ c3 = '\n'
    then some (['\n', '\n'], (c1 :: c2 :: c3 :: t).dropWhile (fun c => c = '\n'))
    else none
  | _ => none

/-- `https?://\S+` fires at a position iff the maximal non-whitespace run `w`
there starts with `https://` (resp. `http://`) and has at least one further
character for `\S+`. -/
abbrev urlCond (w : List Char) : Prop :=
  ("https://".toList.isPrefixOf w ∧ 9 ≤ w.length) ∨
  ("http://".toList.isPrefixOf w ∧ 8 ≤ w.length)

/-- Matcher for `https?://\S+` (replaced by `""`); greedy `\S+` consumes the
whole non-whitespace run. -/
def matchUrl (s : List Char) : Option (List Char × List Char) :=
  if urlCond (s.takeWhile (fun c => !isSpaceC c))
  then some ([], s.dropWhile (fun c => !isSpaceC c)) else none

/-- Case-insensitive character comparison (`re.IGNORECASE`). -/
def lowerEq (a b : Char) : Bool := a.toLower = b.toLower

/-- Case-insensitive literal prefix test. -/
def ciHasPrefix : List Char → List Char → Bool
  | [], _ => true
  | _ :: _, [] => false
  | p :: ps, c :: cs => lowerEq p c && ciHasPrefix ps cs

/-- Matcher for `Ads by\s+\w+` with `re.IGNORECASE` (replaced by `""`):
the literal `Ads by`, at least one whitespace character (greedy maximal run),
then at least one word character (greedy maximal run). -/
def matchAdsBy (s : List Char) : Option (List Char × List Char) :=
  if ciHasPrefix "Ads by".toList s then
    let r := s.drop 6
    if r.takeWhile isSpaceC = [] then none
    else
      let r2 := r.dropWhile isSpaceC
      if r2.takeWhile isWordC = [] then none
      else some ([], r2.dropWhile isWordC)
  else none

/-- Matcher for `Sponsored\s+Content` with `re.IGNORECASE` (replaced by `""`). -/
def matchSponsored (s : List Char) : Option (List Char × List Char) :=
  if ciHasPrefix "Sponsored".toList s then
    let r := s.drop 9
    if r.takeWhile isSpaceC = [] then none
    else
      let r2 := r.dropWhile isSpaceC
      if ciHasPrefix "Content".toList r2 then some ([], r2.drop 7) else none
  else none

/-- `re.sub(r"\s+\n", "\n", text)`. -/
def subWsNl (s : List Char) : List Char := reSub matchWsNl s

/-- `re.sub(r"\n\s+", "\n", text)`. -/
def subNlWs (s : List Char) : List Char := reSub matchNlWs s

/-- `re.sub(r"\n{3,}", "\n\n", text)`. -/
def subNl3 (s : List Char) : List Char := reSub matchNl3 s

/-- `re.sub(r"https?://\S+", "", text)`. -/
def subUrls (s : List Char) : List Char := reSub matchUrl s

/-- `re.sub(r"Ads by\s+\w+", "", text, flags=re.IGNORECASE)`. -/
def subAdsBy (s : List Char) : List Char := reSub matchAdsBy s

/-- `re.sub(r"Sponsored\s+Content", "", text, flags=re.IGNORECASE)`. -/
def subSponsored (s : List Char) : List Char := reSub matchSponsored s

/-- Python `str.strip()` (ASCII whitespace). -/
def pyStrip (s : List Char) : List Char :=
  ((s.dropWhile isSpaceC).reverse.dropWhile isSpaceC).reverse

/-- `clean_text(text, remove_links, strip_ads)` — identical in
`cli_runner.py` (lines 49–58) and `toc_playwright.py` (lines 51–70):
optionally strip the two ad-marker patterns, optionally strip raw URLs,
then normalize whitespace and strip the ends. -/
def clean_text (text : List Char) (remove_links strip_ads : Bool) : List Char :=
  let t1 := if strip_ads then subSponsored (subAdsBy text) else text
  let t2 := if remove_links then subUrls t1 else t1
  pyStrip (subNl3 (subNlWs (subWsNl t2)))

-- sanity checks against the Python implementation
example : clean_text "a \n\n b".toList false false = "a\nb".toList := by decide
example : clean_text "Ads by Acme\n\n\nHello https://x.test/y  world".toList true true
    = "Hello   world".toList := by decide
example : clean_text "Ads bSponsored Contenty W".toList false true = "Ads by W".toList := by
  decide
example : clean_text "Ads by W".toList false true = [] := by decide
example : clean_text "a https://x.y b".toList true true = "a  b".toList := by decide
example : clean_text "a https://x.y b".toList false true = "a https://x.y b".toList := by decide

/-! ### Generic facts about the `re.sub` scanner -/

/-- After normalization, no whitespace character is immediately followed by a
newline (i.e. `\s+\n` has no match). -/
abbrev WsNlStep (a b : Char) : Prop := isSpaceC a = true → b ≠ '\n'

/-- After normalization, no newline is immediately followed by whitespace
(i.e. `\n\s+` has no match). -/
abbrev NlWsStep (a b : Char) : Prop := a = '\n' → isSpaceC b = false

/-- The matcher `m` fires at no position of `s`. -/
def noMatch (m : List Char → Option (List Char × List Char)) : List Char → Prop
  | [] => True
  | c :: cs => m (c :: cs) = none ∧ noMatch m cs

theorem reSubF_nil (m : List Char → Option (List Char × List Char)) :
    ∀ n, reSubF m n [] = [] := by
  intro n; cases n <;> rfl

theorem reSubF_of_noMatch (m : List Char → Option (List Char × List Char)) :
    ∀ n s, noMatch m s → reSubF m n s = s := by
  intro n
  induction n with
  | zero => intro s _; rfl
  | succ n ih =>
    intro s h
    cases s with
    | nil => rfl
    | cons c cs =>
      obtain ⟨h1, h2⟩ := h
      simp only [reSubF, h1]
      exact congrArg (c :: ·) (ih cs h2)

theorem reSub_of_noMatch (m : List Char → Option (List Char × List Char)) (s : List Char)
    (h : noMatch m s) : reSub m s = s :=
  reSubF_of_noMatch m s.length s h

theorem noMatch_suffix (m : List Char → Option (List Char × List Char)) :
    ∀ s t, noMatch m s → t <:+ s → noMatch m t := by
  intro s
  induction s with
  | nil => intro t _ ht; rw [List.suffix_nil.mp ht]; trivial
  | cons c cs ih =>
    intro t h ht
    rcases List.suffix_cons_iff.mp ht with h' | h'
    · rw [h']; exact h
    · exact ih t h.2 h'

theorem reSubF_head?_of_none {m : List Char → Option (List Char × List Char)} {t : List Char}
    (h : m t = none) : ∀ n, (reSubF m n t).head? = t.head? := by
  intro n
  cases n with
  | zero => rfl
  | succ n =>
    cases t with
    | nil => rfl
    | cons c cs => simp [reSubF, h]

/-! ### The `\s+\n` matcher -/

theorem matchWsNl_eq (s : List Char) :
    matchWsNl s =
      if '\n' ∈ (s.takeWhile isSpaceC).drop 1
      then some (['\n'],
        s.drop ((s.takeWhile isSpaceC).length -
          ((s.takeWhile isSpaceC).reverse.takeWhile (fun c => decide (c ≠ '\n'))).length))
      else none := rfl

theorem matchWsNl_none_iff (s : List Char) :
    matchWsNl s = none ↔ '\n' ∉ (s.takeWhile isSpaceC).drop 1 := by
  rw [matchWsNl_eq]
  by_cases hc : '\n' ∈ (s.takeWhile isSpaceC).drop 1
  · rw [if_pos hc]
    exact iff_of_false (by simp) (not_not_intro hc)
  · rw [if_neg hc]
    exact iff_of_true rfl hc

theorem matchWsNl_some_drop {s : List Char} {x : List Char × List Char}
    (h : matchWsNl s = some x) : ∃ j, x.2 = s.drop j := by
  rw [matchWsNl_eq] at h
  by_cases hc : '\n' ∈ (s.takeWhile isSpaceC).drop 1
  · rw [if_pos hc] at h
    exact ⟨_, (congrArg Prod.snd (Option.some.inj h)).symm⟩
  · rw [if_neg hc] at h; exact absurd h (by simp)

theorem matchWsNl_some_spec {s : List Char} {x : List Char × List Char}
    (h : matchWsNl s = some x) :
    x.1 = ['\n'] ∧
    (∃ u, (∀ c ∈ u, isSpaceC c = true ∧ c ≠ '\n') ∧
      x.2 = u ++ s.dropWhile isSpaceC) ∧
    x.2.length < s.length := by
  rw [matchWsNl_eq] at h
  by_cases hc : '\n' ∈ (s.takeWhile isSpaceC).drop 1
  · rw [if_pos hc] at h
    have hx := (Option.some.inj h).symm
    have hx1 : x.1 = ['\n'] := congrArg Prod.fst hx
    have hx2' : x.2 = s.drop ((s.takeWhile isSpaceC).length -
        ((s.takeWhile isSpaceC).reverse.takeWhile (fun c => decide (c ≠ '\n'))).length) :=
      congrArg Prod.snd hx
    have hab : (s.takeWhile isSpaceC).reverse.takeWhile (fun c => decide (c ≠ '\n')) ++
        (s.takeWhile isSpaceC).reverse.dropWhile (fun c => decide (c ≠ '\n')) =
        (s.takeWhile isSpaceC).reverse := List.takeWhile_append_dropWhile _ _
    have hmemw : '\n' ∈ s.takeWhile isSpaceC := List.mem_of_mem_drop hc
    have hbne : (s.takeWhile isSpaceC).reverse.dropWhile (fun c => decide (c ≠ '\n')) ≠ [] := by
      intro hbnil
      rw [hbnil, List.append_nil] at hab
      have hforall : ∀ c ∈ (s.takeWhile isSpaceC).reverse, c ≠ '\n' := by
        intro c hcmem
        rw [← hab] at hcmem
        simpa using List.mem_takeWhile_imp hcmem
      exact hforall '\n' (List.mem_reverse.mpr hmemw) rfl
    obtain ⟨d, b', hbd⟩ := List.exists_cons_of_ne_nil hbne
    have hdnl : d = '\n' := by
      have hh := List.head?_dropWhile_not (fun c => decide (c ≠ '\n'))
        (s.takeWhile isSpaceC).reverse
      rw [hbd] at hh
      simpa using hh
    have hwdec : s.takeWhile isSpaceC =
        (b'.reverse ++ ['\n']) ++
          ((s.takeWhile isSpaceC).reverse.takeWhile (fun c => decide (c ≠ '\n'))).reverse := by
      calc s.takeWhile isSpaceC
          = (s.takeWhile isSpaceC).reverse.reverse := (List.reverse_reverse _).symm
        _ = ((s.takeWhile isSpaceC).reverse.takeWhile (fun c => decide (c ≠ '\n')) ++
              (d :: b')).reverse := by rw [← hbd, hab]
        _ = (b'.reverse ++ ['\n']) ++
              ((s.takeWhile isSpaceC).reverse.takeWhile (fun c => decide (c ≠ '\n'))).reverse := by
            rw [hdnl, List.reverse_append, List.reverse_cons]
    have hsplit : s = s.takeWhile isSpaceC ++ s.dropWhile isSpaceC :=
      (List.takeWhile_append_dropWhile _ _).symm
    have hwlen : (s.takeWhile isSpaceC).length = (b'.length + 1) +
        ((s.takeWhile isSpaceC).reverse.takeWhile (fun c => decide (c ≠ '\n'))).length := by
      conv_lhs => rw [hwdec]
      simp only [List.length_append, List.length_reverse, List.length_cons, List.length_nil]
    have hNcount : (s.takeWhile isSpaceC).length -
        ((s.takeWhile isSpaceC).reverse.takeWhile (fun c => decide (c ≠ '\n'))).length =
        ((b'.reverse ++ ['\n'] : List Char)).length := by
      simp only [List.length_append, List.length_reverse, List.length_cons, List.length_nil]
      omega
    have hdropN : s.drop ((b'.reverse ++ ['\n'] : List Char)).length =
        ((s.takeWhile isSpaceC).reverse.takeWhile (fun c => decide (c ≠ '\n'))).reverse ++
          s.dropWhile isSpaceC := by
      conv_lhs => rw [hsplit, hwdec, List.append_assoc]
      exact List.drop_left _ _
    have hx2 : x.2 =
        ((s.takeWhile isSpaceC).reverse.takeWhile (fun c => decide (c ≠ '\n'))).reverse ++
          s.dropWhile isSpaceC := by
      rw [hx2', hNcount]
      exact hdropN
    have humem : ∀ c ∈
        ((s.takeWhile isSpaceC).reverse.takeWhile (fun c => decide (c ≠ '\n'))).reverse,
        isSpaceC c = true ∧ c ≠ '\n' := by
      intro c hcmem
      have hca : c ∈ (s.takeWhile isSpaceC).reverse.takeWhile (fun c => decide (c ≠ '\n')) :=
        List.mem_reverse.mp hcmem
      constructor
      · have hmw : c ∈ s.takeWhile isSpaceC :=
          List.mem_reverse.mp ((List.takeWhile_prefix _).subset hca)
        exact List.mem_takeWhile_imp hmw
      · simpa using List.mem_takeWhile_imp hca
    refine ⟨hx1, ⟨_, humem, hx2⟩, ?_⟩
    rw [hx2]
    have hslen : s.length =
        (s.takeWhile isSpaceC).length + (s.dropWhile isSpaceC).length := by
      conv_lhs => rw [hsplit]
      exact List.length_append _ _
    simp only [List.length_append, List.length_reverse]
    omega
  · rw [if_neg hc] at h; exact absurd h (by simp)

theorem head?_dropWhile_ws (l : List Char) :
    ∀ y ∈ (l.dropWhile isSpaceC).head?, isSpaceC y = false := by
  intro y hy
  have hh := List.head?_dropWhile_not isSpaceC l
  cases hz : (l.dropWhile isSpaceC).head? with
  | none => rw [hz] at hy; simp at hy
  | some d =>
    rw [hz] at hh hy
    have hyd : d = y := by simpa using hy
    rw [← hyd]
    exact hh

theorem takeWhile_ws_append {u z : List Char} (hu : ∀ c ∈ u, isSpaceC c = true)
    (hz : ∀ y ∈ z.head?, isSpaceC y = false) :
    (u ++ z).takeWhile isSpaceC = u := by
  rw [List.takeWhile_append_of_pos hu]
  cases z with
  | nil => simp
  | cons d t =>
    have hd := hz d rfl
    rw [List.takeWhile_cons_of_neg (by simp [hd])]
    simp

/-- In a string with no whitespace-before-newline pair, a whitespace run that
starts at a whitespace character contains no newline beyond that character. -/
theorem no_nl_in_ws_run :
    ∀ (cs : List Char) (c : Char), isSpaceC c = true → List.Chain' WsNlStep (c :: cs) →
      '\n' ∉ cs.takeWhile isSpaceC := by
  intro cs
  induction cs with
  | nil => intro c _ _; simp
  | cons d t ih =>
    intro c hcws hch
    by_cases hd : isSpaceC d = true
    · rw [List.takeWhile_cons_of_pos hd]
      intro hmem
      rcases List.mem_cons.mp hmem with h1 | h1
      · exact (List.chain'_cons.mp hch).1 hcws h1.symm
      · exact ih d hd (List.Chain'.tail hch) h1
    · rw [List.takeWhile_cons_of_neg (by simp [hd])]
      simp

/-- `\s+\n`-substitution output never has whitespace immediately before a
newline: every newline it emits sits at the start of its whitespace run. -/
theorem chain_wsNl_reSubF :
    ∀ n s, s.length ≤ n → List.Chain' WsNlStep (reSubF matchWsNl n s) := by
  intro n
  induction n with
  | zero =>
    intro s hs
    have h0 : s = [] := List.eq_nil_of_length_eq_zero (Nat.le_zero.mp hs)
    subst h0
    exact List.chain'_nil
  | succ n ih =>
    intro s hs
    cases s with
    | nil => exact List.chain'_nil
    | cons c cs =>
      rcases hm : matchWsNl (c :: cs) with _ | ⟨r, rest⟩
      · rw [show reSubF matchWsNl (n + 1) (c :: cs) = c :: reSubF matchWsNl n cs from by
          simp [reSubF, hm]]
        have hcs_len : cs.length ≤ n := by
          have := hs; simp only [List.length_cons] at this; omega
        refine List.chain'_cons'.mpr ⟨?_, ih cs hcs_len⟩
        intro y hy hcws
        have hnone : '\n' ∉ ((c :: cs).takeWhile isSpaceC).drop 1 := (matchWsNl_none_iff _).mp hm
        rw [List.takeWhile_cons_of_pos hcws] at hnone
        have hnone' : '\n' ∉ cs.takeWhile isSpaceC := by simpa using hnone
        have hcsnone : matchWsNl cs = none := by
          rw [matchWsNl_none_iff]
          exact fun hmem => hnone' (List.mem_of_mem_drop hmem)
        have hy' : cs.head? = some y := by
          rw [← reSubF_head?_of_none hcsnone n]
          simpa using hy
        intro hynl
        cases cs with
        | nil => simp at hy'
        | cons d t =>
          have hdy : d = y := by simpa using hy'
          apply hnone'
          rw [hdy, hynl, List.takeWhile_cons_of_pos (by decide : isSpaceC '\n' = true)]
          exact List.mem_cons_self _ _
      · obtain ⟨hr, ⟨u, hu, hrest⟩, hlen⟩ := matchWsNl_some_spec hm
        dsimp only at hr hrest hlen
        rw [show reSubF matchWsNl (n + 1) (c :: cs) = '\n' :: reSubF matchWsNl n rest from by
          simp only [reSubF, hm]
          rw [show r = ['\n'] from hr]
          rfl]
        have hrest_len : rest.length ≤ n := by
          have h1 : rest.length < (c :: cs).length := hlen
          have h2 := hs
          omega
        refine List.chain'_cons'.mpr ⟨?_, ih rest hrest_len⟩
        intro y hy _
        have hz := head?_dropWhile_ws (c :: cs)
        have hrestnone : matchWsNl rest = none := by
          rw [matchWsNl_none_iff, hrest, takeWhile_ws_append (fun x hx => (hu x hx).1) hz]
          intro hmem
          exact (hu '\n' (List.mem_of_mem_drop hmem)).2 rfl
        have hy' : rest.head? = some y := by
          rw [← reSubF_head?_of_none hrestnone n]
          simpa using hy
        intro hynl
        rw [hynl] at hy'
        rw [hrest] at hy'
        cases u with
        | nil =>
          simp only [List.nil_append] at hy'
          have := hz '\n' (by rw [hy']; rfl)
          exact absurd this (by decide)
        | cons a u' =>
          have ha : a = '\n' := by simpa using hy'
          exact (hu a (List.mem_cons_self _ _)).2 ha

/-- The output of the `\s+\n` pass satisfies the no-whitespace-before-newline
invariant. -/
theorem subWsNl_chain (s : List Char) : List.Chain' WsNlStep (subWsNl s) :=
  chain_wsNl_reSubF s.length s le_rfl

theorem matchNlWs_cons2 (c d : Char) (t : List Char) :
    matchNlWs (c :: d :: t) =
      if c = '\n' ∧ isSpaceC d = true then some (['\n'], (d :: t).dropWhile isSpaceC)
      else none := rfl

theorem matchNl3_cons3 (c1 c2 c3 : Char) (t : List Char) :
    matchNl3 (c1 :: c2 :: c3 :: t) =
      if c1 = '\n' ∧ c2 = '\n' ∧ c3 = '\n'
      then some (['\n', '\n'], (c1 :: c2 :: c3 :: t).dropWhile (fun c => c = '\n'))
      else none := rfl

theorem reSubF_nlWs_head (n : Nat) (d : Char) (t : List Char) :
    (reSubF matchNlWs n (d :: t)).head? = some d := by
  cases n with
  | zero => rfl
  | succ n =>
    cases t with
    | nil => rfl
    | cons e t' =>
      by_cases h : d = '\n' ∧ isSpaceC e = true
      · rw [show reSubF matchNlWs (n + 1) (d :: e :: t') =
            '\n' :: reSubF matchNlWs n ((e :: t').dropWhile isSpaceC) from by
          simp [reSubF, matchNlWs_cons2, if_pos h]]
        rw [h.1]
        rfl
      · rw [show reSubF matchNlWs (n + 1) (d :: e :: t') =
            d :: reSubF matchNlWs n (e :: t') from by
          simp [reSubF, matchNlWs_cons2, if_neg h]]
        rfl

/-- The `\n\s+` pass preserves the no-whitespace-before-newline invariant and
establishes the no-whitespace-after-newline invariant. -/
theorem chain_nlWs_reSubF :
    ∀ n s, s.length ≤ n → List.Chain' WsNlStep s →
      List.Chain' WsNlStep (reSubF matchNlWs n s) ∧
      List.Chain' NlWsStep (reSubF matchNlWs n s) := by
  intro n
  induction n with
  | zero =>
    intro s hs _
    have h0 : s = [] := List.eq_nil_of_length_eq_zero (Nat.le_zero.mp hs)
    subst h0
    exact ⟨List.chain'_nil, List.chain'_nil⟩
  | succ n ih =>
    intro s hs hch
    cases s with
    | nil => exact ⟨List.chain'_nil, List.chain'_nil⟩
    | cons c cs =>
      cases cs with
      | nil =>
        rw [show reSubF matchNlWs (n + 1) [c] = c :: reSubF matchNlWs n [] from by
          simp [reSubF, matchNlWs]]
        rw [reSubF_nil]
        exact ⟨List.chain'_singleton c, List.chain'_singleton c⟩
      | cons d t =>
        by_cases hcd : c = '\n' ∧ isSpaceC d = true
        · have hm : matchNlWs (c :: d :: t) = some (['\n'], (d :: t).dropWhile isSpaceC) := by
            rw [matchNlWs_cons2, if_pos hcd]
          rw [show reSubF matchNlWs (n + 1) (c :: d :: t) =
              '\n' :: reSubF matchNlWs n ((d :: t).dropWhile isSpaceC) from by
            simp [reSubF, hm]]
          have hrest_len : ((d :: t).dropWhile isSpaceC).length ≤ n := by
            have h1 : ((d :: t).dropWhile isSpaceC).length ≤ (d :: t).length :=
              (List.dropWhile_suffix _).length_le
            have h2 := hs
            simp only [List.length_cons] at h1 h2
            rw [List.dropWhile_cons_of_pos hcd.2] at h1 ⊢
            have h3 : (t.dropWhile isSpaceC).length ≤ t.length :=
              (List.dropWhile_suffix _).length_le
            omega
          have hchain_rest : List.Chain' WsNlStep ((d :: t).dropWhile isSpaceC) :=
            hch.suffix ((List.dropWhile_suffix _).trans (List.suffix_cons _ _))
          obtain ⟨ih1, ih2⟩ := ih _ hrest_len hchain_rest
          have hheadrest : ∀ y ∈ (reSubF matchNlWs n ((d :: t).dropWhile isSpaceC)).head?,
              isSpaceC y = false := by
            intro y hy
            have hz := head?_dropWhile_ws (d :: t)
            cases hrest : (d :: t).dropWhile isSpaceC with
            | nil => rw [hrest, reSubF_nil] at hy; simp at hy
            | cons e t' =>
              have he : isSpaceC e = false := hz e (by rw [hrest]; rfl)
              rw [hrest, reSubF_nlWs_head] at hy
              have hey : e = y := by simpa using hy
              rw [← hey]; exact he
          constructor
          · refine List.chain'_cons'.mpr ⟨?_, ih1⟩
            intro y hy _ hynl
            have := hheadrest y hy
            rw [hynl] at this
            exact absurd this (by decide)
          · refine List.chain'_cons'.mpr ⟨?_, ih2⟩
            intro y hy _
            exact hheadrest y hy
        · have hm : matchNlWs (c :: d :: t) = none := by rw [matchNlWs_cons2, if_neg hcd]
          rw [show reSubF matchNlWs (n + 1) (c :: d :: t) =
              c :: reSubF matchNlWs n (d :: t) from by simp [reSubF, hm]]
          have hlen' : (d :: t).length ≤ n := by
            have := hs; simp only [List.length_cons] at this ⊢; omega
          obtain ⟨ih1, ih2⟩ := ih _ hlen' hch.tail
          have hhead := reSubF_nlWs_head n d t
          constructor
          · refine List.chain'_cons'.mpr ⟨?_, ih1⟩
            intro y hy
            have hdy : d = y := by rw [hhead] at hy; simpa using hy
            rw [← hdy]
            exact (List.chain'_cons.mp hch).1
          · refine List.chain'_cons'.mpr ⟨?_, ih2⟩
            intro y hy hcnl
            have hdy : d = y := by rw [hhead] at hy; simpa using hy
            rw [← hdy]
            by_contra hws
            exact hcd ⟨hcnl, by simpa using hws⟩

theorem subNlWs_chain {s : List Char} (h : List.Chain' WsNlStep s) :
    List.Chain' WsNlStep (subNlWs s) ∧ List.Chain' NlWsStep (subNlWs s) :=
  chain_nlWs_reSubF s.length s le_rfl h

/-! ### Identity of the whitespace passes on normalized text -/

theorem noMatch_matchWsNl_of_chain {s : List Char} (h : List.Chain' WsNlStep s) :
    noMatch matchWsNl s := by
  induction s with
  | nil => trivial
  | cons c cs ih =>
    refine ⟨?_, ih h.tail⟩
    rw [matchWsNl_none_iff]
    by_cases hc : isSpaceC c = true
    · rw [List.takeWhile_cons_of_pos hc]
      simpa using no_nl_in_ws_run cs c hc h
    · rw [List.takeWhile_cons_of_neg (by simp [hc])]
      simp

theorem noMatch_matchNlWs_of_chain {s : List Char} (h : List.Chain' NlWsStep s) :
    noMatch matchNlWs s := by
  induction s with
  | nil => trivial
  | cons c cs ih =>
    refine ⟨?_, ih h.tail⟩
    cases cs with
    | nil => rfl
    | cons d t =>
      rw [matchNlWs_cons2, if_neg]
      rintro ⟨hc, hd⟩
      have hstep : NlWsStep c d := (List.chain'_cons.mp h).1
      rw [hstep hc] at hd
      exact Bool.false_ne_true hd

theorem noMatch_matchNl3_of_chain {s : List Char} (h : List.Chain' NlWsStep s) :
    noMatch matchNl3 s := by
  induction s with
  | nil => trivial
  | cons c cs ih =>
    refine ⟨?_, ih h.tail⟩
    cases cs with
    | nil => rfl
    | cons d t =>
      cases t with
      | nil => rfl
      | cons e t' =>
        rw [matchNl3_cons3, if_neg]
        rintro ⟨hc, hd, _⟩
        have hstep : NlWsStep c d := (List.chain'_cons.mp h).1
        have hdws := hstep hc
        rw [hd] at hdws
        exact absurd hdws (by decide)

theorem subWsNl_id {s : List Char} (h : List.Chain' WsNlStep s) : subWsNl s = s :=
  reSub_of_noMatch _ _ (noMatch_matchWsNl_of_chain h)

theorem subNlWs_id {s : List Char} (h : List.Chain' NlWsStep s) : subNlWs s = s :=
  reSub_of_noMatch _ _ (noMatch_matchNlWs_of_chain h)

theorem subNl3_id {s : List Char} (h : List.Chain' NlWsStep s) : subNl3 s = s :=
  reSub_of_noMatch _ _ (noMatch_matchNl3_of_chain h)

/-! ### `str.strip()` facts -/

theorem pyStrip_isInfix (s : List Char) : pyStrip s <:+: s := by
  unfold pyStrip
  have h1 : ((s.dropWhile isSpaceC).reverse.dropWhile isSpaceC).reverse <+:
      s.dropWhile isSpaceC := by
    have h := List.reverse_prefix.mpr
      (List.dropWhile_suffix (l := (s.dropWhile isSpaceC).reverse) isSpaceC)
    rwa [List.reverse_reverse] at h
  exact h1.isInfix.trans (List.dropWhile_suffix isSpaceC).isInfix

theorem stripped_pyStrip (s : List Char) :
    (∀ y ∈ (pyStrip s).head?, isSpaceC y = false) ∧
    (∀ y ∈ (pyStrip s).getLast?, isSpaceC y = false) := by
  constructor
  · intro y hy
    have h1 : ((s.dropWhile isSpaceC).reverse.dropWhile isSpaceC).reverse <+:
        s.dropWhile isSpaceC := by
      have h := List.reverse_prefix.mpr
        (List.dropWhile_suffix (l := (s.dropWhile isSpaceC).reverse) isSpaceC)
      rwa [List.reverse_reverse] at h
    obtain ⟨tl, htl⟩ := h1
    cases hB : ((s.dropWhile isSpaceC).reverse.dropWhile isSpaceC).reverse with
    | nil =>
      rw [show pyStrip s = [] from hB] at hy
      simp at hy
    | cons b bs =>
      rw [show (pyStrip s).head? = some b from by rw [show pyStrip s = b :: bs from hB]; rfl]
        at hy
      have hby : b = y := by simpa using hy
      rw [hB] at htl
      have hhead : (s.dropWhile isSpaceC).head? = some b := by
        rw [← htl]; rfl
      have := head?_dropWhile_ws s b (by rw [hhead]; rfl)
      rw [← hby]
      exact this
  · intro y hy
    have hg : (pyStrip s).getLast? =
        ((s.dropWhile isSpaceC).reverse.dropWhile isSpaceC).head? := by
      unfold pyStrip
      exact List.getLast?_reverse _
    rw [hg] at hy
    exact head?_dropWhile_ws (s.dropWhile isSpaceC).reverse y hy

theorem pyStrip_of_stripped {s : List Char}
    (h1 : ∀ y ∈ s.head?, isSpaceC y = false) (h2 : ∀ y ∈ s.getLast?, isSpaceC y = false) :
    pyStrip s = s := by
  unfold pyStrip
  have hd : s.dropWhile isSpaceC = s := by
    cases s with
    | nil => rfl
    | cons c cs => rw [List.dropWhile_cons_of_neg (by simp [h1 c rfl])]
  rw [hd]
  have hrev : s.reverse.dropWhile isSpaceC = s.reverse := by
    cases hsr : s.reverse with
    | nil => rfl
    | cons c cs =>
      have hlast : s.getLast? = some c := by
        rw [← List.head?_reverse, hsr]; rfl
      rw [List.dropWhile_cons_of_neg (by simp [h2 c (by rw [hlast]; rfl)])]
  rw [hrev, List.reverse_reverse]

/-! ### URL-freedom: `re.sub(r"https?://\S+", "", ·)` leaves no match behind,
and the whitespace passes cannot create one. -/

theorem urlCond_nil : ¬ urlCond ([] : List Char) := by
  rintro (⟨h, h9⟩ | ⟨h, h8⟩) <;> simp at h

theorem urlCond_mono {w w' : List Char} (hp : w <+: w') (h : urlCond w) : urlCond w' := by
  rcases h with ⟨hpre, hlen⟩ | ⟨hpre, hlen⟩
  · exact Or.inl ⟨List.isPrefixOf_iff_prefix.mpr
      ((List.isPrefixOf_iff_prefix.mp hpre).trans hp), le_trans hlen hp.length_le⟩
  · exact Or.inr ⟨List.isPrefixOf_iff_prefix.mpr
      ((List.isPrefixOf_iff_prefix.mp hpre).trans hp), le_trans hlen hp.length_le⟩

theorem matchUrl_none_iff (s : List Char) :
    matchUrl s = none ↔ ¬ urlCond (s.takeWhile (fun c => !isSpaceC c)) := by
  unfold matchUrl
  by_cases h : urlCond (s.takeWhile (fun c => !isSpaceC c))
  · rw [if_pos h]
    exact iff_of_false (by simp) (not_not_intro h)
  · rw [if_neg h]
    exact iff_of_true rfl h

theorem matchUrl_some_spec {s : List Char} {r rest : List Char}
    (h : matchUrl s = some (r, rest)) :
    r = [] ∧ rest = s.dropWhile (fun c => !isSpaceC c) ∧ rest.length < s.length := by
  unfold matchUrl at h
  by_cases hc : urlCond (s.takeWhile (fun c => !isSpaceC c))
  · rw [if_pos hc] at h
    have hx := Option.some.inj h
    have hr : r = [] := (congrArg Prod.fst hx).symm
    have hrest : rest = s.dropWhile (fun c => !isSpaceC c) := (congrArg Prod.snd hx).symm
    refine ⟨hr, hrest, ?_⟩
    have h8 : 8 ≤ (s.takeWhile (fun c => !isSpaceC c)).length := by
      rcases hc with ⟨_, h9⟩ | ⟨_, h8⟩
      · omega
      · exact h8
    cases s with
    | nil => simp at h8
    | cons c cs =>
      by_cases hcw : isSpaceC c = true
      · rw [List.takeWhile_cons_of_neg (by simp [hcw])] at h8
        simp at h8
      · rw [hrest, List.dropWhile_cons_of_pos (by simp [hcw])]
        have := (List.dropWhile_suffix (l := cs) (fun c => !isSpaceC c)).length_le
        simp only [List.length_cons]
        omega
  · rw [if_neg hc] at h
    exact absurd h (by simp)

theorem matchUrl_mono {p q : List Char} {x : List Char × List Char}
    (h : matchUrl p = some x) : ∃ y, matchUrl (p ++ q) = some y := by
  have hcp : urlCond (p.takeWhile (fun c => !isSpaceC c)) := by
    by_contra hc
    rw [← matchUrl_none_iff] at hc
    rw [hc] at h
    exact Option.noConfusion h
  have hcpq : urlCond ((p ++ q).takeWhile (fun c => !isSpaceC c)) := by
    refine urlCond_mono ?_ hcp
    rw [List.takeWhile_append]
    split
    · next hl =>
      rw [(List.takeWhile_prefix (l := p) (fun c => !isSpaceC c)).eq_of_length hl]
      exact List.prefix_append _ _
    · exact List.prefix_rfl
  refine ⟨([], (p ++ q).dropWhile (fun c => !isSpaceC c)), ?_⟩
  unfold matchUrl
  rw [if_pos hcpq]

theorem noMatch_matchUrl_pref : ∀ {l l' : List Char},
    noMatch matchUrl l → l' <+: l → noMatch matchUrl l' := by
  intro l l'
  induction l' generalizing l with
  | nil => intro _ _; trivial
  | cons c t ihp =>
    intro h hp
    obtain ⟨rest, hrest⟩ := hp
    subst hrest
    rw [List.cons_append] at h
    refine ⟨?_, ihp h.2 ⟨rest, rfl⟩⟩
    cases hcx : matchUrl (c :: t) with
    | none => rfl
    | some x =>
      obtain ⟨y, hy⟩ := matchUrl_mono (q := rest) hcx
      rw [List.cons_append] at hy
      rw [h.1] at hy
      exact Option.noConfusion hy

theorem noMatch_matchUrl_infix {l l' : List Char} (h : noMatch matchUrl l)
    (hi : l' <:+: l) : noMatch matchUrl l' := by
  obtain ⟨a, b, hab⟩ := hi
  have h1 : noMatch matchUrl (l' ++ b) := by
    refine noMatch_suffix _ _ _ h ⟨a, ?_⟩
    rw [← List.append_assoc, hab]
  exact noMatch_matchUrl_pref h1 (List.prefix_append _ _)

/-- Shared step: if `https?://\S+` does not fire at `c :: cs` and the leading
non-whitespace run only shrank, it does not fire at `c :: X` either. -/
theorem matchUrl_none_cons_of_pref {c : Char} {X cs : List Char}
    (hm : matchUrl (c :: cs) = none)
    (hpre : X.takeWhile (fun c => !isSpaceC c) <+: cs.takeWhile (fun c => !isSpaceC c)) :
    matchUrl (c :: X) = none := by
  rw [matchUrl_none_iff]
  intro hcond
  by_cases hc : isSpaceC c = true
  · rw [List.takeWhile_cons_of_neg (by simp [hc])] at hcond
    exact urlCond_nil hcond
  · rw [List.takeWhile_cons_of_pos (by simp [hc])] at hcond
    have h2 := (matchUrl_none_iff _).mp hm
    rw [List.takeWhile_cons_of_pos (by simp [hc])] at h2
    exact h2 (urlCond_mono (List.cons_prefix_cons.mpr ⟨rfl, hpre⟩) hcond)

theorem reSubF_url_takeWhile_pref :
    ∀ n t, ((reSubF matchUrl n t).takeWhile (fun c => !isSpaceC c)) <+:
      (t.takeWhile (fun c => !isSpaceC c)) := by
  intro n
  induction n with
  | zero => intro t; exact List.prefix_rfl
  | succ n ih =>
    intro t
    cases t with
    | nil => rw [reSubF_nil]
    | cons c cs =>
      rcases hm : matchUrl (c :: cs) with _ | ⟨r, rest⟩
      · rw [show reSubF matchUrl (n + 1) (c :: cs) = c :: reSubF matchUrl n cs from by
          simp [reSubF, hm]]
        by_cases hc : isSpaceC c = true
        · rw [List.takeWhile_cons_of_neg (by simp [hc]),
            List.takeWhile_cons_of_neg (by simp [hc])]
        · rw [List.takeWhile_cons_of_pos (by simp [hc]),
            List.takeWhile_cons_of_pos (by simp [hc])]
          exact List.cons_prefix_cons.mpr ⟨rfl, ih cs⟩
      · obtain ⟨hr, hrest, _⟩ := matchUrl_some_spec hm
        rw [show reSubF matchUrl (n + 1) (c :: cs) = reSubF matchUrl n rest from by
          simp [reSubF, hm, hr]]
        cases hr2 : rest with
        | nil => rw [reSubF_nil, List.takeWhile_nil]; exact List.nil_prefix
        | cons e t' =>
          have he : isSpaceC e = true := by
            have hh := List.head?_dropWhile_not (fun c => !isSpaceC c) (c :: cs)
            rw [← hrest] at hh
            rw [hr2] at hh
            simpa using hh
          have hnone : matchUrl (e :: t') = none := by
            rw [matchUrl_none_iff, List.takeWhile_cons_of_neg (by simp [he])]
            exact urlCond_nil
          cases hout : reSubF matchUrl n (e :: t') with
          | nil => rw [List.takeWhile_nil]; exact List.nil_prefix
          | cons o os =>
            have hoe : o = e := by
              have hhead := reSubF_head?_of_none hnone n
              rw [hout] at hhead
              simpa using hhead
            rw [List.takeWhile_cons_of_neg (by simp [hoe, he])]
            exact List.nil_prefix

/-- The output of the URL pass contains no URL match (removal of one
`https?://\S+` token cannot splice a new one together). -/
theorem noMatch_matchUrl_reSubF :
    ∀ n s, s.length ≤ n → noMatch matchUrl (reSubF matchUrl n s) := by
  intro n
  induction n with
  | zero =>
    intro s hs
    have h0 : s = [] := List.eq_nil_of_length_eq_zero (Nat.le_zero.mp hs)
    subst h0; trivial
  | succ n ih =>
    intro s hs
    cases s with
    | nil => trivial
    | cons c cs =>
      rcases hm : matchUrl (c :: cs) with _ | ⟨r, rest⟩
      · rw [show reSubF matchUrl (n + 1) (c :: cs) = c :: reSubF matchUrl n cs from by
          simp [reSubF, hm]]
        have hlen : cs.length ≤ n := by
          have := hs; simp only [List.length_cons] at this; omega
        exact ⟨matchUrl_none_cons_of_pref hm (reSubF_url_takeWhile_pref n cs),
          ih cs hlen⟩
      · obtain ⟨hr, hrest, hlen⟩ := matchUrl_some_spec hm
        rw [show reSubF matchUrl (n + 1) (c :: cs) = reSubF matchUrl n rest from by
          simp [reSubF, hm, hr]]
        have hlen' : rest.length ≤ n := by
          have h2 := hs; simp only [List.length_cons] at h2
          omega
        exact ih rest hlen'

theorem matchNlWs_some_spec {s : List Char} {r rest : List Char}
    (h : matchNlWs s = some (r, rest)) :
    r = ['\n'] ∧ rest <:+ s ∧ rest.length < s.length ∧
      (∀ y ∈ rest.head?, isSpaceC y = false) := by
  cases s with
  | nil => exact absurd h (by simp [matchNlWs])
  | cons c cs =>
    cases cs with
    | nil => exact absurd h (by simp [matchNlWs])
    | cons d t =>
      rw [matchNlWs_cons2] at h
      by_cases hc : c = '\n' ∧ isSpaceC d = true
      · rw [if_pos hc] at h
        have hx := Option.some.inj h
        have hr : r = ['\n'] := (congrArg Prod.fst hx).symm
        have hrest : rest = (d :: t).dropWhile isSpaceC := (congrArg Prod.snd hx).symm
        refine ⟨hr, ?_, ?_, ?_⟩
        · rw [hrest]
          exact (List.dropWhile_suffix _).trans (List.suffix_cons _ _)
        · rw [hrest, List.dropWhile_cons_of_pos hc.2]
          have := (List.dropWhile_suffix (l := t) isSpaceC).length_le
          simp only [List.length_cons]
          omega
        · rw [hrest]
          exact head?_dropWhile_ws (d :: t)
      · rw [if_neg hc] at h
        exact absurd h (by simp)

theorem reSubF_wsNl_takeWhile_pref :
    ∀ n t, ((reSubF matchWsNl n t).takeWhile (fun c => !isSpaceC c)) <+:
      (t.takeWhile (fun c => !isSpaceC c)) := by
  intro n
  induction n with
  | zero => intro t; exact List.prefix_rfl
  | succ n ih =>
    intro t
    cases t with
    | nil => rw [reSubF_nil]
    | cons c cs =>
      rcases hm : matchWsNl (c :: cs) with _ | ⟨r, rest⟩
      · rw [show reSubF matchWsNl (n + 1) (c :: cs) = c :: reSubF matchWsNl n cs from by
          simp [reSubF, hm]]
        by_cases hc : isSpaceC c = true
        · rw [List.takeWhile_cons_of_neg (by simp [hc]),
            List.takeWhile_cons_of_neg (by simp [hc])]
        · rw [List.takeWhile_cons_of_pos (by simp [hc]),
            List.takeWhile_cons_of_pos (by simp [hc])]
          exact List.cons_prefix_cons.mpr ⟨rfl, ih cs⟩
      · obtain ⟨hr, _, _⟩ := matchWsNl_some_spec hm
        dsimp only at hr
        rw [show reSubF matchWsNl (n + 1) (c :: cs) = '\n' :: reSubF matchWsNl n rest from by
          simp only [reSubF, hm]
          rw [show r = ['\n'] from hr]
          rfl]
        rw [List.takeWhile_cons_of_neg (by decide)]
        exact List.nil_prefix

theorem reSubF_nlWs_takeWhile_pref :
    ∀ n t, ((reSubF matchNlWs n t).takeWhile (fun c => !isSpaceC c)) <+:
      (t.takeWhile (fun c => !isSpaceC c)) := by
  intro n
  induction n with
  | zero => intro t; exact List.prefix_rfl
  | succ n ih =>
    intro t
    cases t with
    | nil => rw [reSubF_nil]
    | cons c cs =>
      rcases hm : matchNlWs (c :: cs) with _ | ⟨r, rest⟩
      · rw [show reSubF matchNlWs (n + 1) (c :: cs) = c :: reSubF matchNlWs n cs from by
          simp [reSubF, hm]]
        by_cases hc : isSpaceC c = true
        · rw [List.takeWhile_cons_of_neg (by simp [hc]),
            List.takeWhile_cons_of_neg (by simp [hc])]
        · rw [List.takeWhile_cons_of_pos (by simp [hc]),
            List.takeWhile_cons_of_pos (by simp [hc])]
          exact List.cons_prefix_cons.mpr ⟨rfl, ih cs⟩
      · obtain ⟨hr, _, _, _⟩ := matchNlWs_some_spec hm
        rw [show reSubF matchNlWs (n + 1) (c :: cs) = '\n' :: reSubF matchNlWs n rest from by
          simp only [reSubF, hm]
          rw [show r = ['\n'] from hr]
          rfl]
        rw [List.takeWhile_cons_of_neg (by decide)]
        exact List.nil_prefix

theorem noMatch_url_reSubF_wsNl :
    ∀ n s, s.length ≤ n → noMatch matchUrl s →
      noMatch matchUrl (reSubF matchWsNl n s) := by
  intro n
  induction n with
  | zero =>
    intro s hs _
    have h0 : s = [] := List.eq_nil_of_length_eq_zero (Nat.le_zero.mp hs)
    subst h0; trivial
  | succ n ih =>
    intro s hs h
    cases s with
    | nil => trivial
    | cons c cs =>
      rcases hm : matchWsNl (c :: cs) with _ | ⟨r, rest⟩
      · rw [show reSubF matchWsNl (n + 1) (c :: cs) = c :: reSubF matchWsNl n cs from by
          simp [reSubF, hm]]
        have hlen : cs.length ≤ n := by
          have := hs; simp only [List.length_cons] at this; omega
        exact ⟨matchUrl_none_cons_of_pref h.1 (reSubF_wsNl_takeWhile_pref n cs),
          ih cs hlen h.2⟩
      · obtain ⟨hr, _, hlen⟩ := matchWsNl_some_spec hm
        dsimp only at hr hlen
        obtain ⟨j, hj⟩ := matchWsNl_some_drop hm
        dsimp only at hj
        rw [show reSubF matchWsNl (n + 1) (c :: cs) = '\n' :: reSubF matchWsNl n rest from by
          simp only [reSubF, hm]
          rw [show r = ['\n'] from hr]
          rfl]
        have hrest : noMatch matchUrl rest := by
          refine noMatch_suffix _ _ _ h ?_
          rw [hj]
          exact List.drop_suffix _ _
        have hlen' : rest.length ≤ n := by
          have h2 := hs; simp only [List.length_cons] at h2 hlen
          omega
        refine ⟨?_, ih rest hlen' hrest⟩
        rw [matchUrl_none_iff, List.takeWhile_cons_of_neg (by decide)]
        exact urlCond_nil

theorem noMatch_url_reSubF_nlWs :
    ∀ n s, s.length ≤ n → noMatch matchUrl s →
      noMatch matchUrl (reSubF matchNlWs n s) := by
  intro n
  induction n with
  | zero =>
    intro s hs _
    have h0 : s = [] := List.eq_nil_of_length_eq_zero (Nat.le_zero.mp hs)
    subst h0; trivial
  | succ n ih =>
    intro s hs h
    cases s with
    | nil => trivial
    | cons c cs =>
      rcases hm : matchNlWs (c :: cs) with _ | ⟨r, rest⟩
      · rw [show reSubF matchNlWs (n + 1) (c :: cs) = c :: reSubF matchNlWs n cs from by
          simp [reSubF, hm]]
        have hlen : cs.length ≤ n := by
          have := hs; simp only [List.length_cons] at this; omega
        exact ⟨matchUrl_none_cons_of_pref h.1 (reSubF_nlWs_takeWhile_pref n cs),
          ih cs hlen h.2⟩
      · obtain ⟨hr, hsuf, hlen, _⟩ := matchNlWs_some_spec hm
        rw [show reSubF matchNlWs (n + 1) (c :: cs) = '\n' :: reSubF matchNlWs n rest from by
          simp only [reSubF, hm]
          rw [show r = ['\n'] from hr]
          rfl]
        have hrest : noMatch matchUrl rest := noMatch_suffix _ _ _ h hsuf
        have hlen' : rest.length ≤ n := by
          have h2 := hs; simp only [List.length_cons] at h2 hlen
          omega
        refine ⟨?_, ih rest hlen' hrest⟩
        rw [matchUrl_none_iff, List.takeWhile_cons_of_neg (by decide)]
        exact urlCond_nil

theorem subUrls_of_noMatch {s : List Char} (h : noMatch matchUrl s) : subUrls s = s :=
  reSub_of_noMatch _ _ h

/-! ### Idempotence of the full normalization pipeline -/

theorem normalize_y_eq (x : List Char) :
    pyStrip (subNl3 (subNlWs (subWsNl x))) = pyStrip (subNlWs (subWsNl x)) := by
  rw [subNl3_id (subNlWs_chain (subWsNl_chain x)).2]

theorem normalize_idem (x : List Char) :
    pyStrip (subNl3 (subNlWs (subWsNl (pyStrip (subNl3 (subNlWs (subWsNl x))))))) =
      pyStrip (subNl3 (subNlWs (subWsNl x))) := by
  rw [normalize_y_eq x]
  obtain ⟨hc2a, hc2b⟩ := subNlWs_chain (subWsNl_chain x)
  have hinf := pyStrip_isInfix (subNlWs (subWsNl x))
  have hyc1 := hc2a.infix hinf
  have hyc2 := hc2b.infix hinf
  obtain ⟨hyh, hyl⟩ := stripped_pyStrip (subNlWs (subWsNl x))
  rw [subWsNl_id hyc1, subNlWs_id hyc2, subNl3_id hyc2, pyStrip_of_stripped hyh hyl]

theorem normalize_noUrl (x : List Char) (h : noMatch matchUrl x) :
    noMatch matchUrl (pyStrip (subNl3 (subNlWs (subWsNl x)))) := by
  rw [normalize_y_eq x]
  have h1 : noMatch matchUrl (subWsNl x) := noMatch_url_reSubF_wsNl x.length x le_rfl h
  have h2 : noMatch matchUrl (subNlWs (subWsNl x)) :=
    noMatch_url_reSubF_nlWs (subWsNl x).length _ le_rfl h1
  exact noMatch_matchUrl_infix h2 (pyStrip_isInfix _)

/-- **C3** (amended): with `strip_ads = false`, `clean_text` is idempotent,
for both values of `remove_links` — the link-stripping pass and the
whitespace-normalization passes are already at a fixed point after one run.
(With `strip_ads = true` idempotence fails: removing a `Sponsored Content`
occurrence can splice together a fresh `Ads by …` match.) -/
theorem clean_text_idem_noAds (t : List Char) (r : Bool) :
    clean_text (clean_text t r false) r false = clean_text t r false := by
  cases r with
  | false =>
    show pyStrip (subNl3 (subNlWs (subWsNl (pyStrip (subNl3 (subNlWs (subWsNl t))))))) =
      pyStrip (subNl3 (subNlWs (subWsNl t)))
    exact normalize_idem t
  | true =>
    show pyStrip (subNl3 (subNlWs (subWsNl (subUrls
        (pyStrip (subNl3 (subNlWs (subWsNl (subUrls t))))))))) =
      pyStrip (subNl3 (subNlWs (subWsNl (subUrls t))))
    have hnu : noMatch matchUrl (pyStrip (subNl3 (subNlWs (subWsNl (subUrls t))))) :=
      normalize_noUrl _ (noMatch_matchUrl_reSubF t.length t le_rfl)
    rw [subUrls_of_noMatch hnu]
    exact normalize_idem _

/-! ### `safe_filename` -/

/-- The reserved filename characters `\ / : * ? " < > |`. -/
def isReservedC (c : Char) : Bool :=
  c = '\\' || c = '/' || c = ':' || c = '*' || c = '?' || c = '"' ||
  c = '<' || c = '>' || c = '|'

/-- `re.sub(r"[\t\n\r]", " ", name)`: a single-character class replaces each
matching character independently. -/
def subCtl (s : List Char) : List Char :=
  s.map (fun c => if c = '\t' ∨ c = '\n' ∨ c = '\r' then ' ' else c)

/-- Matcher for `[\\/:*?"<>|]+` (replaced by `"_"`): greedy, consumes a
maximal reserved-character run. -/
def matchReserved (s : List Char) : Option (List Char × List Char) :=
  match s with
  | c :: cs =>
    if isReservedC c then some (['_'], (c :: cs).dropWhile isReservedC) else none
  | [] => none

/-- `re.sub(r'[\\/:*?"<>|]+', "_", name)` (cli_runner.py line 44). -/
def subReservedRun (s : List Char) : List Char := reSub matchReserved s

/-- `re.sub(r"[\\/:*?\"<>|]", "_", name)` (toc_playwright.py line 46): note
the class is NOT starred there, so each reserved character is replaced by its
own underscore. -/
def subReservedChar (s : List Char) : List Char :=
  s.map (fun c => if isReservedC c then '_' else c)

/-- Matcher for `\s+` (replaced by `" "`): greedy maximal whitespace run. -/
def matchWsRun (s : List Char) : Option (List Char × List Char) :=
  match s with
  | c :: cs =>
    if isSpaceC c then some ([' '], (c :: cs).dropWhile isSpaceC) else none
  | [] => none

/-- `re.sub(r"\s+", " ", name)`. -/
def subWsRun (s : List Char) : List Char := reSub matchWsRun s

namespace Cli

/-- `safe_filename` of cli_runner.py lines 42–46: map tab/LF/CR to spaces and
strip, collapse reserved-character runs to one underscore, collapse
whitespace runs to one space, then `(name or "untitled")[:150]`. -/
def safe_filename (name : List Char) : List Char :=
  let n1 := pyStrip (subCtl name)
  let n2 := subReservedRun n1
  let n3 := subWsRun n2
  (if n3 = [] then "untitled".toList else n3).take 150

end Cli

namespace Gui

/-- `safe_filename` of toc_playwright.py lines 44–48: map tab/LF/CR to spaces
and strip, replace each reserved character by an underscore, collapse
whitespace runs to one space, then `name[:150] if name else "untitled"`. -/
def safe_filename (name : List Char) : List Char :=
  let n1 := pyStrip (subCtl name)
  let n2 := subReservedChar n1
  let n3 := subWsRun n2
  if n3 = [] then "untitled".toList else n3.take 150

end Gui

example : Cli.safe_filename "a||b".toList = "a_b".toList := by decide
example : Gui.safe_filename "a||b".toList = "a__b".toList := by decide
example : Cli.safe_filename "  \t ".toList = "untitled".toList := by decide
example : Gui.safe_filename "a: b?".toList = "a_ b_".toList := by decide
example : Cli.safe_filename "a: b?".toList = "a_ b_".toList := by decide

/-! ### Fuel irrelevance and membership facts for the filename passes -/

theorem reSubF_congr_fuel (m : List Char → Option (List Char × List Char))
    (hm : ∀ s x, m s = some x → x.2.length < s.length) :
    ∀ n n' s, s.length ≤ n → s.length ≤ n' → reSubF m n s = reSubF m n' s := by
  intro n
  induction n with
  | zero =>
    intro n' s hs _
    have h0 : s = [] := List.eq_nil_of_length_eq_zero (Nat.le_zero.mp hs)
    subst h0
    rw [reSubF_nil, reSubF_nil]
  | succ n ih =>
    intro n' s hs hs'
    cases s with
    | nil => rw [reSubF_nil, reSubF_nil]
    | cons c cs =>
      cases n' with
      | zero => simp at hs'
      | succ n' =>
        rcases hmm : m (c :: cs) with _ | x
        · rw [show reSubF m (n + 1) (c :: cs) = c :: reSubF m n cs from by
              simp [reSubF, hmm],
            show reSubF m (n' + 1) (c :: cs) = c :: reSubF m n' cs from by
              simp [reSubF, hmm]]
          simp only [List.length_cons] at hs hs'
          rw [ih n' cs (by omega) (by omega)]
        · obtain ⟨r, rest⟩ := x
          have hlt := hm _ _ hmm
          dsimp only at hlt
          rw [show reSubF m (n + 1) (c :: cs) = r ++ reSubF m n rest from by
              simp [reSubF, hmm],
            show reSubF m (n' + 1) (c :: cs) = r ++ reSubF m n' rest from by
              simp [reSubF, hmm]]
          simp only [List.length_cons] at hs hs' hlt
          rw [ih n' rest (by omega) (by omega)]

theorem matchReserved_cons (c : Char) (cs : List Char) :
    matchReserved (c :: cs) =
      if isReservedC c = true then some (['_'], (c :: cs).dropWhile isReservedC)
      else none := rfl

theorem matchWsRun_cons (c : Char) (cs : List Char) :
    matchWsRun (c :: cs) =
      if isSpaceC c = true then some ([' '], (c :: cs).dropWhile isSpaceC)
      else none := rfl

theorem matchReserved_shrink : ∀ (s : List Char) x, matchReserved s = some x →
    x.2.length < s.length := by
  intro s x h
  cases s with
  | nil => exact absurd h (by simp [matchReserved])
  | cons c cs =>
    rw [matchReserved_cons] at h
    by_cases hc : isReservedC c = true
    · rw [if_pos hc] at h
      have hx := Option.some.inj h
      have : x.2 = (c :: cs).dropWhile isReservedC := (congrArg Prod.snd hx).symm
      rw [this, List.dropWhile_cons_of_pos hc]
      have := (List.dropWhile_suffix (l := cs) isReservedC).length_le
      simp only [List.length_cons]
      omega
    · rw [if_neg hc] at h
      exact absurd h (by simp)

theorem matchWsRun_shrink : ∀ (s : List Char) x, matchWsRun s = some x →
    x.2.length < s.length := by
  intro s x h
  cases s with
  | nil => exact absurd h (by simp [matchWsRun])
  | cons c cs =>
    rw [matchWsRun_cons] at h
    by_cases hc : isSpaceC c = true
    · rw [if_pos hc] at h
      have hx := Option.some.inj h
      have : x.2 = (c :: cs).dropWhile isSpaceC := (congrArg Prod.snd hx).symm
      rw [this, List.dropWhile_cons_of_pos hc]
      have := (List.dropWhile_suffix (l := cs) isSpaceC).length_le
      simp only [List.length_cons]
      omega
    · rw [if_neg hc] at h
      exact absurd h (by simp)

theorem mem_reSubF_reserved :
    ∀ n s c, s.length ≤ n → c ∈ reSubF matchReserved n s →
      c = '_' ∨ isReservedC c = false := by
  intro n
  induction n with
  | zero =>
    intro s c hs hmem
    have h0 : s = [] := List.eq_nil_of_length_eq_zero (Nat.le_zero.mp hs)
    subst h0
    rw [reSubF_nil] at hmem
    simp at hmem
  | succ n ih =>
    intro s c hs hmem
    cases s with
    | nil => rw [reSubF_nil] at hmem; simp at hmem
    | cons d ds =>
      rcases hm : matchReserved (d :: ds) with _ | x
      · rw [show reSubF matchReserved (n + 1) (d :: ds) = d :: reSubF matchReserved n ds from by
          simp [reSubF, hm]] at hmem
        rcases List.mem_cons.mp hmem with h1 | h1
        · right
          subst h1
          rw [matchReserved_cons] at hm
          by_cases hd : isReservedC c = true
          · rw [if_pos hd] at hm; exact absurd hm (by simp)
          · simpa using hd
        · simp only [List.length_cons] at hs
          exact ih ds c (by omega) h1
      · obtain ⟨r, rest⟩ := x
        have hshr := matchReserved_shrink _ _ hm
        dsimp only at hshr
        have hr : r = ['_'] := by
          rw [matchReserved_cons] at hm
          by_cases he : isReservedC d = true
          · rw [if_pos he] at hm
            exact (congrArg Prod.fst (Option.some.inj hm)).symm
          · rw [if_neg he] at hm; exact absurd hm (by simp)
        rw [show reSubF matchReserved (n + 1) (d :: ds) =
            r ++ reSubF matchReserved n rest from by simp [reSubF, hm]] at hmem
        rw [hr] at hmem
        rcases List.mem_append.mp hmem with h1 | h1
        · left; simpa using h1
        · simp only [List.length_cons] at hs hshr
          exact ih rest c (by omega) h1

theorem mem_reSubF_wsRun :
    ∀ n s c, s.length ≤ n → c ∈ reSubF matchWsRun n s → c = ' ' ∨ c ∈ s := by
  intro n
  induction n with
  | zero =>
    intro s c hs hmem
    have h0 : s = [] := List.eq_nil_of_length_eq_zero (Nat.le_zero.mp hs)
    subst h0
    rw [reSubF_nil] at hmem
    simp at hmem
  | succ n ih =>
    intro s c hs hmem
    cases s with
    | nil => rw [reSubF_nil] at hmem; simp at hmem
    | cons d ds =>
      rcases hm : matchWsRun (d :: ds) with _ | x
      · rw [show reSubF matchWsRun (n + 1) (d :: ds) = d :: reSubF matchWsRun n ds from by
          simp [reSubF, hm]] at hmem
        rcases List.mem_cons.mp hmem with h1 | h1
        · right; rw [h1]; exact List.mem_cons_self _ _
        · simp only [List.length_cons] at hs
          rcases ih ds c (by omega) h1 with h2 | h2
          · exact Or.inl h2
          · exact Or.inr (List.mem_cons_of_mem _ h2)
      · obtain ⟨r, rest⟩ := x
        have hshr := matchWsRun_shrink _ _ hm
        dsimp only at hshr
        have hx : r = [' '] ∧ rest = (d :: ds).dropWhile isSpaceC := by
          rw [matchWsRun_cons] at hm
          by_cases he : isSpaceC d = true
          · rw [if_pos he] at hm
            have h2 := Option.some.inj hm
            exact ⟨(congrArg Prod.fst h2).symm, (congrArg Prod.snd h2).symm⟩
          · rw [if_neg he] at hm; exact absurd hm (by simp)
        rw [show reSubF matchWsRun (n + 1) (d :: ds) =
            r ++ reSubF matchWsRun n rest from by simp [reSubF, hm]] at hmem
        rw [hx.1] at hmem
        rcases List.mem_append.mp hmem with h1 | h1
        · left; simpa using h1
        · simp only [List.length_cons] at hs hshr
          rcases ih rest c (by omega) h1 with h2 | h2
          · exact Or.inl h2
          · right
            rw [hx.2] at h2
            exact (List.dropWhile_suffix isSpaceC).subset h2

theorem mem_subCtl {s : List Char} {c : Char} (h : c ∈ subCtl s) : c = ' ' ∨ c ∈ s := by
  unfold subCtl at h
  obtain ⟨a, ha, hfa⟩ := List.mem_map.mp h
  by_cases hc : a = '\t' ∨ a = '\n' ∨ a = '\r'
  · rw [if_pos hc] at hfa; exact Or.inl hfa.symm
  · rw [if_neg hc] at hfa; exact Or.inr (hfa ▸ ha)

theorem subReservedRun_mem {s : List Char} {c : Char} (h : c ∈ subReservedRun s) :
    c = '_' ∨ isReservedC c = false :=
  mem_reSubF_reserved s.length s c le_rfl h

theorem subWsRun_mem {s : List Char} {c : Char} (h : c ∈ subWsRun s) :
    c = ' ' ∨ c ∈ s :=
  mem_reSubF_wsRun s.length s c le_rfl h

/-! ### Run-collapsing behaviour of the two reserved-character passes -/

theorem dropWhile_all_append {p : Char → Bool} {u z : List Char}
    (hu : ∀ c ∈ u, p c = true) (hz : ∀ y ∈ z.head?, p y = false) :
    (u ++ z).dropWhile p = z := by
  rw [List.dropWhile_append]
  have hu' : u.dropWhile p = [] := List.dropWhile_eq_nil_iff.mpr hu
  rw [hu']
  rw [if_pos (by simp)]
  cases z with
  | nil => rfl
  | cons d t => rw [List.dropWhile_cons_of_neg (by simp [hz d rfl])]

theorem dropWhile_append_left {p : Char → Bool} {a y : List Char}
    (h : a.dropWhile p ≠ []) : (a ++ y).dropWhile p = a.dropWhile p ++ y := by
  rw [List.dropWhile_append, if_neg (by simpa [List.isEmpty_iff] using h)]

theorem subReservedRun_cons_none {c : Char} {cs : List Char} (hc : isReservedC c = false) :
    subReservedRun (c :: cs) = c :: subReservedRun cs := by
  show reSubF matchReserved (cs.length + 1) (c :: cs) = _
  rw [show reSubF matchReserved (cs.length + 1) (c :: cs) =
      c :: reSubF matchReserved cs.length cs from by
    simp [reSubF, matchReserved_cons, hc]]
  rfl

theorem subReservedRun_cons_res {c : Char} {cs : List Char} (hc : isReservedC c = true) :
    subReservedRun (c :: cs) = '_' :: subReservedRun (cs.dropWhile isReservedC) := by
  show reSubF matchReserved (cs.length + 1) (c :: cs) = _
  have hm : matchReserved (c :: cs) = some (['_'], cs.dropWhile isReservedC) := by
    rw [matchReserved_cons, if_pos hc, List.dropWhile_cons_of_pos hc]
  rw [show reSubF matchReserved (cs.length + 1) (c :: cs) =
      ['_'] ++ reSubF matchReserved cs.length (cs.dropWhile isReservedC) from by
    simp [reSubF, hm]]
  rw [reSubF_congr_fuel matchReserved matchReserved_shrink cs.length
    (cs.dropWhile isReservedC).length (cs.dropWhile isReservedC)
    ((List.dropWhile_suffix _).length_le) le_rfl]
  rfl

theorem subReservedRun_run_head {run b : List Char} (hrun : run ≠ [])
    (hres : ∀ c ∈ run, isReservedC c = true)
    (hhead : ∀ c ∈ b.head?, isReservedC c = false) :
    subReservedRun (run ++ b) = '_' :: subReservedRun b := by
  obtain ⟨rc, run', hrc⟩ := List.exists_cons_of_ne_nil hrun
  subst hrc
  rw [List.cons_append, subReservedRun_cons_res (hres rc (List.mem_cons_self _ _))]
  rw [show (run' ++ b).dropWhile isReservedC = b from
    dropWhile_all_append (fun c hc => hres c (List.mem_cons_of_mem _ hc)) hhead]

/-- The CLI pass collapses a maximal run of reserved characters (preceded and
followed by non-reserved context) to a single underscore. -/
theorem subReservedRun_split :
    ∀ n (a run b : List Char), a.length ≤ n → run ≠ [] →
      (∀ c ∈ run, isReservedC c = true) →
      (∀ c ∈ a.getLast?, isReservedC c = false) →
      (∀ c ∈ b.head?, isReservedC c = false) →
      subReservedRun (a ++ run ++ b) = subReservedRun a ++ '_' :: subReservedRun b := by
  intro n
  induction n with
  | zero =>
    intro a run b ha hrun hres hlast hhead
    have h0 : a = [] := List.eq_nil_of_length_eq_zero (Nat.le_zero.mp ha)
    subst h0
    simpa using subReservedRun_run_head hrun hres hhead
  | succ n ih =>
    intro a run b ha hrun hres hlast hhead
    cases a with
    | nil => simpa using subReservedRun_run_head hrun hres hhead
    | cons c a' =>
      by_cases hc : isReservedC c = true
      · have ha'ne : a' ≠ [] := by
          intro h0
          subst h0
          have hl := hlast c rfl
          rw [hc] at hl
          exact absurd hl (by decide)
        have ha'' : a'.dropWhile isReservedC ≠ [] := by
          intro h0
          have hall := List.dropWhile_eq_nil_iff.mp h0
          cases hg : a'.getLast? with
          | none => exact ha'ne (List.getLast?_eq_none_iff.mp hg)
          | some lc =>
            have hlc := hall lc (List.mem_of_getLast?_eq_some hg)
            have hl : isReservedC lc = false := by
              apply hlast
              obtain ⟨d, a'', hd⟩ := List.exists_cons_of_ne_nil ha'ne
              subst hd
              rw [List.getLast?_cons_cons]
              rw [hg]; rfl
            rw [hlc] at hl
            exact absurd hl (by decide)
        have hsplit : a' = a'.takeWhile isReservedC ++ a'.dropWhile isReservedC :=
          (List.takeWhile_append_dropWhile _ _).symm
        have hlast'' : ∀ x ∈ (a'.dropWhile isReservedC).getLast?, isReservedC x = false := by
          intro x hx
          apply hlast
          obtain ⟨d, a'', hd⟩ := List.exists_cons_of_ne_nil ha'ne
          subst hd
          rw [List.getLast?_cons_cons]
          conv_lhs => rw [hsplit]
          rw [List.getLast?_append]
          cases hg2 : ((d :: a'').dropWhile isReservedC).getLast? with
          | none => exact absurd (List.getLast?_eq_none_iff.mp hg2) ha''
          | some y =>
            rw [hg2] at hx
            have : y = x := by simpa using hx
            subst this
            rfl
        have hstep : subReservedRun ((c :: a') ++ run ++ b) =
            '_' :: subReservedRun (a'.dropWhile isReservedC ++ run ++ b) := by
          rw [List.cons_append, List.cons_append, subReservedRun_cons_res hc]
          rw [List.append_assoc, dropWhile_append_left ha'', ← List.append_assoc]
        rw [hstep]
        have hlen : (a'.dropWhile isReservedC).length ≤ n := by
          have h1 := (List.dropWhile_suffix (l := a') isReservedC).length_le
          simp only [List.length_cons] at ha
          omega
        rw [ih _ run b hlen hrun hres hlast'' hhead]
        rw [subReservedRun_cons_res hc, List.cons_append]
      · have hc' : isReservedC c = false := by simpa using hc
        have hlast' : ∀ x ∈ a'.getLast?, isReservedC x = false := by
          intro x hx
          apply hlast
          cases a' with
          | nil => simp at hx
          | cons d a'' => rw [List.getLast?_cons_cons]; exact hx
        have hstep : subReservedRun ((c :: a') ++ run ++ b) =
            c :: subReservedRun (a' ++ run ++ b) := by
          rw [List.cons_append, List.cons_append, subReservedRun_cons_none hc']
        rw [hstep]
        have hlen : a'.length ≤ n := by
          simp only [List.length_cons] at ha
          omega
        rw [ih _ run b hlen hrun hres hlast' hhead]
        rw [subReservedRun_cons_none hc']
        rfl

/-- The GUI pass replaces each reserved character by its own underscore. -/
theorem subReservedChar_split (a run b : List Char)
    (hres : ∀ c ∈ run, isReservedC c = true) :
    subReservedChar (a ++ run ++ b) =
      subReservedChar a ++ run.map (fun _ => '_') ++ subReservedChar b := by
  unfold subReservedChar
  rw [List.map_append, List.map_append]
  have : run.map (fun c => if isReservedC c then '_' else c) = run.map (fun _ => '_') :=
    List.map_congr_left (fun x hx => by rw [if_pos (hres x hx)])
  rw [this]

/-! ### URL parsing (`urllib.parse`), validation and link resolution -/

/-- Characters allowed in a URL scheme after the leading letter. -/
def isSchemeC (c : Char) : Bool :=
  c.isAlphanum || c = '+' || c = '-' || c = '.'

/-- `urllib.parse` scheme splitting: a scheme exists iff a `:` occurs after a
nonempty prefix that starts with a letter and consists of scheme characters;
the scheme is lowercased.  Returns `(scheme, remainder)`, or `([], url)` when
there is no scheme. -/
def splitScheme (u : List Char) : List Char × List Char :=
  match u.takeWhile (fun c => c ≠ ':'), u.dropWhile (fun c => c ≠ ':') with
  | c0 :: cs0, _ :: rest =>
    if c0.isAlpha && cs0.all isSchemeC then ((c0 :: cs0).map Char.toLower, rest)
    else ([], u)
  | _, _ => ([], u)

/-- `urlparse(u).scheme` (lowercased). -/
def urlScheme (u : List Char) : List Char := (splitScheme u).1

/-- `urlparse(u).netloc`: present iff the remainder after the scheme starts
with `//`; extends to the next `/`, `?` or `#`.  (IPv6-bracket validation is
not modelled.) -/
def urlHost (u : List Char) : List Char :=
  match (splitScheme u).2 with
  | '/' :: '/' :: rest => rest.takeWhile (fun c => c ≠ '/' ∧ c ≠ '?' ∧ c ≠ '#')
  | _ => []

/-- `is_valid_url` of cli_runner.py lines 34–39:
`p.scheme in ("http", "https") and bool(p.netloc)`. -/
def is_valid_url (u : List Char) : Bool :=
  ((urlScheme u = "http".toList) || (urlScheme u = "https".toList)) && !(urlHost u).isEmpty

namespace Gui

/-- The TOC-URL check of toc_playwright.py `_validate_basic_inputs`
(lines 360–364): `toc = ….strip(); if not toc or not toc.startswith("http")`. -/
def validateTocUrl (toc : List Char) : Bool :=
  !(pyStrip toc).isEmpty && "http".toList.isPrefixOf (pyStrip toc)

end Gui

/-- `urllib.parse.urljoin`, restricted to the base shape `scheme://host` in
which both callers construct it (cli_runner.py line 154, toc_playwright.py
line 282: a base with an empty path); dot-segment removal is not modelled. -/
def urljoin (base url : List Char) : List Char :=
  if url = [] then base
  else if "//".toList.isPrefixOf url then urlScheme base ++ ':' :: url
  else if (splitScheme url).1 ≠ [] then url
  else if "/".toList.isPrefixOf url ∨ "?".toList.isPrefixOf url ∨
      "#".toList.isPrefixOf url then base ++ url
  else base ++ '/' :: url

/-- Link filtering and absolutization, identical in cli_runner.py lines
148–155 and toc_playwright.py lines 273–283: drop falsy hrefs (`None` and
`""`), then keep hrefs starting with the literal `"http"` verbatim and join
the others against the TOC origin `f"{scheme}://{netloc}"`. -/
def resolveLinks (toc : List Char) (raw : List (Option (List Char))) : List (List Char) :=
  let links := (raw.filterMap id).filter (fun l => !l.isEmpty)
  let base := urlScheme toc ++ "://".toList ++ urlHost toc
  links.map (fun l => if "http".toList.isPrefixOf l then l else urljoin base l)

/-- Modelled from the spec: "joins relative hrefs against the TOC URL's
scheme+host origin to form absolute URLs" — here a href is relative iff it
carries no scheme, the standard notion of a relative reference.  Used only to
compare the spec's wording with the code's `startswith("http")` test. -/
def resolveLinksSpec (toc : List Char) (raw : List (Option (List Char))) : List (List Char) :=
  let links := (raw.filterMap id).filter (fun l => !l.isEmpty)
  let base := urlScheme toc ++ "://".toList ++ urlHost toc
  links.map (fun l => if (splitScheme l).1 ≠ [] then l else urljoin base l)

example : urlScheme "https://ex.test".toList = "https".toList := by decide
example : urlHost "https://ex.test/a/b".toList = "ex.test".toList := by decide
example : is_valid_url "HTTP://ex.test".toList = true := by decide
example : is_valid_url "http://".toList = false := by decide
example : is_valid_url "httpx://h".toList = false := by decide
example : urljoin "https://ex.test".toList "/c/1".toList = "https://ex.test/c/1".toList := by
  decide

/-- Outcome of the pre-navigation phase of a run. -/
inductive StartOutcome
  | exitInvalid
  | proceed
deriving DecidableEq

/-- cli_runner.py `main` lines 101–127 up to the TOC navigation: the URL is
validated before Playwright is launched; an invalid URL exits with an error
and no page is ever navigated.  The second component lists navigated URLs. -/
def Cli.mainStart (toc : List Char) : StartOutcome × List (List Char) :=
  if is_valid_url toc then (.proceed, [toc]) else (.exitInvalid, [])

/-- toc_playwright.py `launch_browser` (lines 178–204) guarded by
`_validate_basic_inputs`: a URL passing the `startswith("http")` check is
navigated to. -/
def Gui.launchBrowser (toc : List Char) : StartOutcome × List (List Char) :=
  if Gui.validateTocUrl toc then (.proceed, [pyStrip toc]) else (.exitInvalid, [])

/-! ### The extraction pipelines -/

/-- What the browsing driver reports for one page visit.  For each selector,
`none` models "no element matches" (so `eval_on_selector` raises), and
`some t` an element whose `innerText` is `t` (`none` inside models a null
result). -/
structure PageView where
  titleEl : Option (Option (List Char))
  contentEl : Option (Option (List Char))

/-- One page visit: a navigation timeout, or a loaded page. -/
inductive Visit
  | timeout
  | loaded (pv : PageView)

/-- Python's `x or d` for an optional string (`None` and `""` are falsy). -/
def pyOrStr (v : Option (List Char)) (d : List Char) : List Char :=
  match v with
  | none => d
  | some s => if s = [] then d else s

/-- Events of a model run. -/
inductive Ev
  | nav (chapter attempt : Nat)
  | retrySleep
  | paceSleep
  | writeChapter (chapter : Nat) (title text : List Char)
  | writeCombined (chapter : Nat) (title text : List Char)
deriving DecidableEq

/-- Outcome of one chapter. -/
inductive ChapterOutcome
  | extracted (title text : List Char)
  | failed
deriving DecidableEq

def isPaceEv : Ev → Bool
  | .paceSleep => true
  | _ => false

def isWriteEv : Ev → Bool
  | .writeChapter _ _ _ => true
  | .writeCombined _ _ _ => true
  | _ => false

def isWriteFor (i : Nat) : Ev → Bool
  | .writeChapter j _ _ => j = i
  | .writeCombined j _ _ => j = i
  | _ => false

def isNavFor (i : Nat) : Ev → Bool
  | .nav j _ => j = i
  | _ => false

def isExtractedB : ChapterOutcome → Bool
  | .extracted _ _ => true
  | .failed => false

/-- One CLI attempt body (cli_runner.py lines 172–194): navigate, query the
title and content selectors (raising on a missing element), build the title
with the `chapter_<i>` fallback (Python `or`, so an empty innerText also
falls back), clean the body with `remove_links = not include_links`, and
return the chapter title and cleaned text; a timeout or raised query is a
retryable failure (`none`). -/
def Cli.attempt (include_links strip_ads : Bool) (i : Nat) (v : Visit) :
    Option (List Char × List Char) :=
  match v with
  | .timeout => none
  | .loaded pv =>
    match pv.titleEl with
    | none => none
    | some t? =>
      match pv.contentEl with
      | none => none
      | some b? =>
        let title := Cli.safe_filename (pyOrStr t? ("chapter_" ++ toString i).toList)
        let body := pyOrStr b? []
        some (title, clean_text body (!include_links) strip_ads)

/-- The retry loop of cli_runner.py lines 169–210.  `attempt` is the Python
counter after `attempt += 1`; `budget` is `retries - (attempt - 1)`, so the
Python guard `attempt <= retries` is `budget ≥ 1`.  Returns the outcome, the
total number of attempts, and the emitted events. -/
def Cli.chapterLoop (include_links strip_ads : Bool) (visit : Nat → Visit) (i : Nat) :
    Nat → Nat → ChapterOutcome × Nat × List Ev
  | attempt, budget =>
    match Cli.attempt include_links strip_ads i (visit attempt), budget with
    | some (title, text), _ =>
      (.extracted title text, attempt,
        [.nav i attempt, .writeChapter i title text, .writeCombined i title text])
    | none, 0 => (.failed, attempt, [.nav i attempt])
    | none, b + 1 =>
      let r := Cli.chapterLoop include_links strip_ads visit i (attempt + 1) b
      (r.1, r.2.1, .nav i attempt :: .retrySleep :: r.2.2)

def Cli.runChapter (include_links strip_ads : Bool) (retries : Nat) (visit : Nat → Visit)
    (i : Nat) : ChapterOutcome × Nat × List Ev :=
  Cli.chapterLoop include_links strip_ads visit i 1 retries

/-- The chapter loop of cli_runner.py lines 168–213: chapters are processed
in source order with 1-based indices, and after each chapter — extracted or
given up — exactly one pacing sleep (line 213) runs unconditionally. -/
def Cli.runLinks (include_links strip_ads : Bool) (retries : Nat)
    (driver : Nat → Nat → Visit) :
    Nat → List (List Char) → List (Nat × ChapterOutcome × Nat) × List Ev
  | _, [] => ([], [])
  | i, _ :: ls =>
    let c := Cli.runChapter include_links strip_ads retries (driver i) i
    let r := Cli.runLinks include_links strip_ads retries driver (i + 1) ls
    ((i, c.1, c.2.1) :: r.1, c.2.2 ++ .paceSleep :: r.2)

def Cli.run (include_links strip_ads : Bool) (retries : Nat) (driver : Nat → Nat → Visit)
    (links : List (List Char)) : List (Nat × ChapterOutcome × Nat) × List Ev :=
  Cli.runLinks include_links strip_ads retries driver 1 links

/-- One GUI chapter step (toc_playwright.py lines 306–345): navigate; on a
timeout, raised query (missing element) or falsy body the chapter is skipped
with no file write and no pacing sleep; on success the two writes happen and
one pacing sleep (lines 338–340) runs.  There is no retry. -/
def Gui.step (include_links strip_ads : Bool) (idx : Nat) (v : Visit) :
    ChapterOutcome × List Ev :=
  match v with
  | .timeout => (.failed, [.nav idx 1])
  | .loaded pv =>
    match pv.titleEl with
    | none => (.failed, [.nav idx 1])
    | some t? =>
      match pv.contentEl with
      | none => (.failed, [.nav idx 1])
      | some b? =>
        match b? with
        | none => (.failed, [.nav idx 1])
        | some body =>
          if body = [] then (.failed, [.nav idx 1])
          else
            (.extracted (Gui.safe_filename (pyOrStr t? ("chapter_" ++ toString idx).toList))
              (clean_text body (!include_links) strip_ads),
             [.nav idx 1,
              .writeChapter idx
                (Gui.safe_filename (pyOrStr t? ("chapter_" ++ toString idx).toList))
                (clean_text body (!include_links) strip_ads),
              .writeCombined idx
                (Gui.safe_filename (pyOrStr t? ("chapter_" ++ toString idx).toList))
                (clean_text body (!include_links) strip_ads),
              .paceSleep])

def Gui.runLinks (include_links strip_ads : Bool) (driver : Nat → Visit) :
    Nat → List (List Char) → List (Nat × ChapterOutcome) × List Ev
  | _, [] => ([], [])
  | i, _ :: ls =>
    let c := Gui.step include_links strip_ads i (driver i)
    let r := Gui.runLinks include_links strip_ads driver (i + 1) ls
    ((i, c.1) :: r.1, c.2 ++ r.2)

def Gui.run (include_links strip_ads : Bool) (driver : Nat → Visit)
    (links : List (List Char)) : List (Nat × ChapterOutcome) × List Ev :=
  Gui.runLinks include_links strip_ads driver 1 links

/-! ### Politeness delays -/

/-- cli_runner.py lines 107–108: `min_d = max(0.0, args.min_delay);
max_d = max(min_d, args.max_delay)`.  Durations are modelled as rationals. -/
def Cli.clampDelays (min_delay max_delay : ℚ) : ℚ × ℚ :=
  (max 0 min_delay, max (max 0 min_delay) max_delay)

/-- toc_playwright.py lines 296–299: `if min_d < 0: min_d = 0;
if max_d < min_d: max_d = min_d`. -/
def Gui.clampDelays (min_delay max_delay : ℚ) : ℚ × ℚ :=
  (if min_delay < 0 then 0 else min_delay,
   if max_delay < (if min_delay < 0 then 0 else min_delay)
   then (if min_delay < 0 then 0 else min_delay) else max_delay)

/-- cli_runner.py lines 61–64: `delay = max(0.0, random.uniform(min_s, max_s))`;
`u` stands for the uniform sample. -/
def sleep_polite_delay (u : ℚ) : ℚ := max 0 u

/-! ### Facts about the pipeline models -/

/-- The chapter an event belongs to, when any. -/
def evChapter : Ev → Option Nat
  | .nav j _ => some j
  | .writeChapter j _ _ => some j
  | .writeCombined j _ _ => some j
  | _ => none

theorem chapterLoop_ev (il sa : Bool) (v : Nat → Visit) (i : Nat) :
    ∀ budget attempt, ∀ e ∈ (Cli.chapterLoop il sa v i attempt budget).2.2,
      evChapter e = some i ∨ e = .retrySleep := by
  intro budget
  induction budget with
  | zero =>
    intro attempt e he
    unfold Cli.chapterLoop at he
    rcases ha : Cli.attempt il sa i (v attempt) with _ | ⟨title, text⟩ <;> rw [ha] at he
    · simp at he
      rw [he]; left; rfl
    · simp at he
      rcases he with h | h | h <;> rw [h] <;> left <;> rfl
  | succ b ih =>
    intro attempt e he
    unfold Cli.chapterLoop at he
    rcases ha : Cli.attempt il sa i (v attempt) with _ | ⟨title, text⟩ <;> rw [ha] at he
    · simp only [List.mem_cons] at he
      rcases he with h | h | h
      · rw [h]; left; rfl
      · rw [h]; right; rfl
      · exact ih (attempt + 1) e h
    · simp at he
      rcases he with h | h | h <;> rw [h] <;> left <;> rfl

theorem chapterLoop_countP_zero (il sa : Bool) (v : Nat → Visit) (i : Nat)
    (p : Ev → Bool) (hp : ∀ e, evChapter e = some i ∨ e = .retrySleep → p e = false) :
    ∀ budget attempt, (Cli.chapterLoop il sa v i attempt budget).2.2.countP p = 0 := by
  intro budget attempt
  rw [List.countP_eq_zero]
  intro e he h
  rw [hp e (chapterLoop_ev il sa v i budget attempt e he)] at h
  exact Bool.false_ne_true h

theorem chapterLoop_allFail (il sa : Bool) (v : Nat → Visit) (i : Nat)
    (hfail : ∀ a, Cli.attempt il sa i (v a) = none) :
    ∀ budget attempt,
      (Cli.chapterLoop il sa v i attempt budget).1 = .failed ∧
      (Cli.chapterLoop il sa v i attempt budget).2.1 = attempt + budget ∧
      (Cli.chapterLoop il sa v i attempt budget).2.2.countP (isNavFor i) = budget + 1 ∧
      ∀ e ∈ (Cli.chapterLoop il sa v i attempt budget).2.2, isWriteEv e = false := by
  intro budget
  induction budget with
  | zero =>
    intro attempt
    unfold Cli.chapterLoop
    rw [hfail attempt]
    refine ⟨rfl, rfl, ?_, ?_⟩
    · simp [isNavFor]
    · intro e he
      simp at he
      rw [he]; rfl
  | succ b ih =>
    intro attempt
    unfold Cli.chapterLoop
    rw [hfail attempt]
    obtain ⟨ih1, ih2, ih3, ih4⟩ := ih (attempt + 1)
    refine ⟨ih1, by dsimp only; omega, ?_, ?_⟩
    · dsimp only
      rw [List.countP_cons, List.countP_cons, ih3]
      simp [isNavFor]
    · intro e he
      dsimp only at he
      simp only [List.mem_cons] at he
      rcases he with h | h | h
      · rw [h]; rfl
      · rw [h]; rfl
      · exact ih4 e h

theorem runLinks_results (il sa : Bool) (rt : Nat) (d : Nat → Nat → Visit) :
    ∀ (ls : List (List Char)) (i0 : Nat),
      (Cli.runLinks il sa rt d i0 ls).1 =
        (List.range' i0 ls.length).map (fun j =>
          (j, (Cli.runChapter il sa rt (d j) j).1, (Cli.runChapter il sa rt (d j) j).2.1)) := by
  intro ls
  induction ls with
  | nil => intro i0; rfl
  | cons l ls ih =>
    intro i0
    rw [show (Cli.runLinks il sa rt d i0 (l :: ls)).1 =
        (i0, (Cli.runChapter il sa rt (d i0) i0).1,
          (Cli.runChapter il sa rt (d i0) i0).2.1) :: (Cli.runLinks il sa rt d (i0 + 1) ls).1
      from rfl]
    rw [ih (i0 + 1), List.length_cons, List.range'_succ, List.map_cons]

theorem runChapter_countP_zero (il sa : Bool) (rt : Nat) (v : Nat → Visit) (i : Nat)
    (p : Ev → Bool) (hp : ∀ e, evChapter e = some i ∨ e = .retrySleep → p e = false) :
    (Cli.runChapter il sa rt v i).2.2.countP p = 0 :=
  chapterLoop_countP_zero il sa v i p hp rt 1

theorem pace_not_in_chapter (i : Nat) :
    ∀ e : Ev, evChapter e = some i ∨ e = .retrySleep → isPaceEv e = false := by
  rintro e (h | rfl)
  · cases e <;> first | rfl | simp [evChapter] at h
  · rfl

theorem runLinks_paceCount (il sa : Bool) (rt : Nat) (d : Nat → Nat → Visit) :
    ∀ (ls : List (List Char)) (i0 : Nat),
      (Cli.runLinks il sa rt d i0 ls).2.countP isPaceEv = ls.length := by
  intro ls
  induction ls with
  | nil => intro i0; rfl
  | cons l ls ih =>
    intro i0
    rw [show (Cli.runLinks il sa rt d i0 (l :: ls)).2 =
        (Cli.runChapter il sa rt (d i0) i0).2.2 ++
          .paceSleep :: (Cli.runLinks il sa rt d (i0 + 1) ls).2 from rfl]
    rw [List.countP_append, List.countP_cons, ih (i0 + 1)]
    rw [runChapter_countP_zero il sa rt (d i0) i0 isPaceEv (pace_not_in_chapter i0)]
    simp [isPaceEv, List.length_cons]

theorem runLinks_countP_zero (il sa : Bool) (rt : Nat) (d : Nat → Nat → Visit)
    (p : Ev → Bool) (i : Nat) (hpace : p .paceSleep = false)
    (hother : ∀ j, j ≠ i → (Cli.runChapter il sa rt (d j) j).2.2.countP p = 0) :
    ∀ (ls : List (List Char)) (i0 : Nat), i < i0 →
      (Cli.runLinks il sa rt d i0 ls).2.countP p = 0 := by
  intro ls
  induction ls with
  | nil => intro i0 _; rfl
  | cons l ls ih =>
    intro i0 hi
    rw [show (Cli.runLinks il sa rt d i0 (l :: ls)).2 =
        (Cli.runChapter il sa rt (d i0) i0).2.2 ++
          .paceSleep :: (Cli.runLinks il sa rt d (i0 + 1) ls).2 from rfl]
    rw [List.countP_append, List.countP_cons, hpace]
    rw [hother i0 (by omega), ih (i0 + 1) (by omega)]
    simp

theorem runLinks_countP_single (il sa : Bool) (rt : Nat) (d : Nat → Nat → Visit)
    (p : Ev → Bool) (i : Nat) (hpace : p .paceSleep = false)
    (hother : ∀ j, j ≠ i → (Cli.runChapter il sa rt (d j) j).2.2.countP p = 0) :
    ∀ (ls : List (List Char)) (i0 : Nat), i0 ≤ i → i < i0 + ls.length →
      (Cli.runLinks il sa rt d i0 ls).2.countP p =
        (Cli.runChapter il sa rt (d i) i).2.2.countP p := by
  intro ls
  induction ls with
  | nil => intro i0 h1 h2; simp at h2; omega
  | cons l ls ih =>
    intro i0 h1 h2
    rw [show (Cli.runLinks il sa rt d i0 (l :: ls)).2 =
        (Cli.runChapter il sa rt (d i0) i0).2.2 ++
          .paceSleep :: (Cli.runLinks il sa rt d (i0 + 1) ls).2 from rfl]
    rw [List.countP_append, List.countP_cons, hpace]
    by_cases hii : i0 = i
    · subst hii
      rw [runLinks_countP_zero il sa rt d p i0 hpace hother ls (i0 + 1) (by omega)]
      simp
    · rw [hother i0 hii, ih (i0 + 1) (by omega) (by
        simp only [List.length_cons] at h2
        omega)]
      simp

theorem runLinks_countP_zero_all (il sa : Bool) (rt : Nat) (d : Nat → Nat → Visit)
    (p : Ev → Bool) (hpace : p .paceSleep = false)
    (hall : ∀ j, (Cli.runChapter il sa rt (d j) j).2.2.countP p = 0) :
    ∀ (ls : List (List Char)) (i0 : Nat), (Cli.runLinks il sa rt d i0 ls).2.countP p = 0 := by
  intro ls
  induction ls with
  | nil => intro i0; rfl
  | cons l ls ih =>
    intro i0
    rw [show (Cli.runLinks il sa rt d i0 (l :: ls)).2 =
        (Cli.runChapter il sa rt (d i0) i0).2.2 ++
          .paceSleep :: (Cli.runLinks il sa rt d (i0 + 1) ls).2 from rfl]
    rw [List.countP_append, List.countP_cons, hpace, hall i0, ih (i0 + 1)]
    simp

theorem navFor_not_other {i j : Nat} (hij : j ≠ i) :
    ∀ e : Ev, evChapter e = some j ∨ e = .retrySleep ∨ e = .paceSleep →
      isNavFor i e = false := by
  rintro e (h | rfl | rfl)
  · cases e with
    | nav k a =>
      have : k = j := by simpa [evChapter] using h
      subst this
      simp [isNavFor, hij]
    | retrySleep => rfl
    | paceSleep => rfl
    | writeChapter k tt tx => rfl
    | writeCombined k tt tx => rfl
  · rfl
  · rfl

theorem writeFor_not_other {i j : Nat} (hij : j ≠ i) :
    ∀ e : Ev, evChapter e = some j ∨ e = .retrySleep ∨ e = .paceSleep →
      isWriteFor i e = false := by
  rintro e (h | rfl | rfl)
  · cases e with
    | nav k a => rfl
    | retrySleep => rfl
    | paceSleep => rfl
    | writeChapter k tt tx =>
      have : k = j := by simpa [evChapter] using h
      subst this
      simp [isWriteFor, hij]
    | writeCombined k tt tx =>
      have : k = j := by simpa [evChapter] using h
      subst this
      simp [isWriteFor, hij]
  · rfl
  · rfl

theorem gui_step_ev (il sa : Bool) (idx : Nat) (v : Visit) :
    ∀ e ∈ (Gui.step il sa idx v).2, evChapter e = some idx ∨ e = .paceSleep := by
  intro e he
  rcases v with _ | ⟨t?, c?⟩
  · rw [show (Gui.step il sa idx Visit.timeout).2 = [.nav idx 1] from rfl] at he
    simp at he
    rw [he]; left; rfl
  · rcases t? with _ | t?v
    · rw [show (Gui.step il sa idx (.loaded ⟨none, c?⟩)).2 = [.nav idx 1] from rfl] at he
      simp at he
      rw [he]; left; rfl
    · rcases c? with _ | b?
      · rw [show (Gui.step il sa idx (.loaded ⟨some t?v, none⟩)).2 = [.nav idx 1] from rfl]
          at he
        simp at he
        rw [he]; left; rfl
      · rcases b? with _ | body
        · rw [show (Gui.step il sa idx (.loaded ⟨some t?v, some none⟩)).2 = [.nav idx 1]
            from rfl] at he
          simp at he
          rw [he]; left; rfl
        · by_cases hb : body = []
          · subst hb
            rw [show (Gui.step il sa idx (.loaded ⟨some t?v, some (some [])⟩)).2 =
                [Ev.nav idx 1] from rfl] at he
            simp at he
            rw [he]; left; rfl
          · rw [show (Gui.step il sa idx (.loaded ⟨some t?v, some (some body)⟩)).2 =
                (if body = [] then (ChapterOutcome.failed, [Ev.nav idx 1])
                 else
                  (.extracted
                    (Gui.safe_filename (pyOrStr t?v ("chapter_" ++ toString idx).toList))
                    (clean_text body (!il) sa),
                   [.nav idx 1,
                    .writeChapter idx
                      (Gui.safe_filename (pyOrStr t?v ("chapter_" ++ toString idx).toList))
                      (clean_text body (!il) sa),
                    .writeCombined idx
                      (Gui.safe_filename (pyOrStr t?v ("chapter_" ++ toString idx).toList))
                      (clean_text body (!il) sa),
                    .paceSleep])).2 from rfl, if_neg hb] at he
            simp only [List.mem_cons] at he
            rcases he with h | h | h | h | h
            · rw [h]; left; rfl
            · rw [h]; left; rfl
            · rw [h]; left; rfl
            · rw [h]; right; rfl
            · simp at h

theorem gui_step_pace (il sa : Bool) (idx : Nat) (v : Visit) :
    (Gui.step il sa idx v).2.countP isPaceEv =
      if isExtractedB (Gui.step il sa idx v).1 then 1 else 0 := by
  rcases v with _ | ⟨t?, c?⟩
  · rfl
  · rcases t? with _ | t?v
    · rfl
    · rcases c? with _ | b?
      · rfl
      · rcases b? with _ | body
        · rfl
        · by_cases hb : body = []
          · subst hb; rfl
          · rw [show Gui.step il sa idx (.loaded ⟨some t?v, some (some body)⟩) =
                if body = [] then (ChapterOutcome.failed, [Ev.nav idx 1])
                else
                  (.extracted
                    (Gui.safe_filename (pyOrStr t?v ("chapter_" ++ toString idx).toList))
                    (clean_text body (!il) sa),
                   [.nav idx 1,
                    .writeChapter idx
                      (Gui.safe_filename (pyOrStr t?v ("chapter_" ++ toString idx).toList))
                      (clean_text body (!il) sa),
                    .writeCombined idx
                      (Gui.safe_filename (pyOrStr t?v ("chapter_" ++ toString idx).toList))
                      (clean_text body (!il) sa),
                    .paceSleep]) from rfl, if_neg hb]
            rfl

theorem guiRunLinks_results (il sa : Bool) (d : Nat → Visit) :
    ∀ (ls : List (List Char)) (i0 : Nat),
      (Gui.runLinks il sa d i0 ls).1 =
        (List.range' i0 ls.length).map (fun j => (j, (Gui.step il sa j (d j)).1)) := by
  intro ls
  induction ls with
  | nil => intro i0; rfl
  | cons l ls ih =>
    intro i0
    rw [show (Gui.runLinks il sa d i0 (l :: ls)).1 =
        (i0, (Gui.step il sa i0 (d i0)).1) :: (Gui.runLinks il sa d (i0 + 1) ls).1 from rfl]
    rw [ih (i0 + 1), List.length_cons, List.range'_succ, List.map_cons]

theorem guiRunLinks_paceCount (il sa : Bool) (d : Nat → Visit) :
    ∀ (ls : List (List Char)) (i0 : Nat),
      (Gui.runLinks il sa d i0 ls).2.countP isPaceEv =
        (Gui.runLinks il sa d i0 ls).1.countP (fun q => isExtractedB q.2) := by
  intro ls
  induction ls with
  | nil => intro i0; rfl
  | cons l ls ih =>
    intro i0
    rw [show (Gui.runLinks il sa d i0 (l :: ls)).2 =
        (Gui.step il sa i0 (d i0)).2 ++ (Gui.runLinks il sa d (i0 + 1) ls).2 from rfl]
    rw [show (Gui.runLinks il sa d i0 (l :: ls)).1 =
        (i0, (Gui.step il sa i0 (d i0)).1) :: (Gui.runLinks il sa d (i0 + 1) ls).1 from rfl]
    rw [List.countP_append, List.countP_cons, ih (i0 + 1), gui_step_pace]
    dsimp only
    rcases h : (Gui.step il sa i0 (d i0)).1 with ⟨tt, tx⟩ | _
    · simp [isExtractedB]
      omega
    · simp [isExtractedB]

theorem guiRunLinks_countP_zero (il sa : Bool) (d : Nat → Visit)
    (p : Ev → Bool) (hall : ∀ j, (Gui.step il sa j (d j)).2.countP p = 0) :
    ∀ (ls : List (List Char)) (i0 : Nat), (Gui.runLinks il sa d i0 ls).2.countP p = 0 := by
  intro ls
  induction ls with
  | nil => intro i0; rfl
  | cons l ls ih =>
    intro i0
    rw [show (Gui.runLinks il sa d i0 (l :: ls)).2 =
        (Gui.step il sa i0 (d i0)).2 ++ (Gui.runLinks il sa d (i0 + 1) ls).2 from rfl]
    rw [List.countP_append, hall i0, ih (i0 + 1)]

theorem writeFor_false_of_not_writeEv {i : Nat} {e : Ev} (h : isWriteEv e = false) :
    isWriteFor i e = false := by
  cases e <;> first | rfl | exact absurd h (by simp [isWriteEv])

/-! ### The claims -/

/-- **C1**: with `retries = 2` (the CLI default), a chapter `i` whose
extraction fails on every attempt — for instance, every navigation times
out — is navigated to exactly 3 times, its result records the failed
outcome with attempt counter 3, and the run is not aborted: every link
still yields a result, in source order with 1-based indices. -/
theorem c1_retry_exhaustion (il sa : Bool) (driver : Nat → Nat → Visit)
    (links : List (List Char)) (i : Nat)
    (hfail : ∀ a, Cli.attempt il sa i (driver i a) = none)
    (h1 : 1 ≤ i) (h2 : i ≤ links.length) :
    (Cli.run il sa 2 driver links).1.map (fun q => q.1) =
      List.range' 1 links.length ∧
    (Cli.run il sa 2 driver links).1[i - 1]? = some (i, .failed, 3) ∧
    (Cli.run il sa 2 driver links).2.countP (isNavFor i) = 3 := by
  have hchap := chapterLoop_allFail il sa (driver i) i hfail 2 1
  have hres : (Cli.run il sa 2 driver links).1 =
      (List.range' 1 links.length).map (fun j =>
        (j, (Cli.runChapter il sa 2 (driver j) j).1,
          (Cli.runChapter il sa 2 (driver j) j).2.1)) :=
    runLinks_results il sa 2 driver links 1
  refine ⟨?_, ?_, ?_⟩
  · rw [hres, List.map_map]
    rw [show ((fun q : Nat × ChapterOutcome × Nat => q.1) ∘ fun j : Nat =>
        (j, (Cli.runChapter il sa 2 (driver j) j).1,
          (Cli.runChapter il sa 2 (driver j) j).2.1)) = id from rfl, List.map_id]
  · rw [hres, List.getElem?_map, List.getElem?_range' 1 1 (show i - 1 < links.length by omega)]
    rw [Option.map_some']
    have hi : 1 + 1 * (i - 1) = i := by omega
    rw [hi]
    rw [show (Cli.runChapter il sa 2 (driver i) i).1 = ChapterOutcome.failed from hchap.1,
      show (Cli.runChapter il sa 2 (driver i) i).2.1 = 3 from hchap.2.1]
  · have hother : ∀ j, j ≠ i →
        (Cli.runChapter il sa 2 (driver j) j).2.2.countP (isNavFor i) = 0 := by
      intro j hj
      exact runChapter_countP_zero il sa 2 (driver j) j (isNavFor i)
        (fun e he => navFor_not_other hj e (he.imp (fun h => h) (fun h => Or.inl h)))
    rw [show (Cli.run il sa 2 driver links).2 = (Cli.runLinks il sa 2 driver 1 links).2
        from rfl]
    rw [runLinks_countP_single il sa 2 driver (isNavFor i) i rfl hother links 1 h1 (by omega)]
    exact hchap.2.2.1

/-- Witness: a two-link run whose first chapter always times out. -/
theorem c1_retry_exhaustion_witness :
    (Cli.run false true 2 (fun _ _ => Visit.timeout) ["u1".toList, "u2".toList]).1.map
        (fun q => q.1) = List.range' 1 ["u1".toList, "u2".toList].length ∧
    (Cli.run false true 2 (fun _ _ => Visit.timeout) ["u1".toList, "u2".toList]).1[1 - 1]? =
      some (1, ChapterOutcome.failed, 3) ∧
    (Cli.run false true 2 (fun _ _ => Visit.timeout)
        ["u1".toList, "u2".toList]).2.countP (isNavFor 1) = 3 :=
  c1_retry_exhaustion false true (fun _ _ => Visit.timeout) ["u1".toList, "u2".toList] 1
    (fun a => rfl) (by decide) (by decide)

/-- **C2**: a chapter page on which no element matches the content selector
(every loaded visit for that chapter reports a missing content element) is a
hard failure in both pipelines: the chapter's recorded outcome is failed,
and no per-chapter or combined write event is emitted for it. -/
theorem c2_content_not_found (il sa : Bool) (rt : Nat) (driver : Nat → Nat → Visit)
    (gdriver : Nat → Visit) (links glinks : List (List Char)) (i : Nat)
    (hcli : ∀ a pv, driver i a = .loaded pv → pv.contentEl = none)
    (hgui : ∀ pv, gdriver i = .loaded pv → pv.contentEl = none) :
    (∀ q ∈ (Cli.run il sa rt driver links).1, q.1 = i → q.2.1 = ChapterOutcome.failed) ∧
    (Cli.run il sa rt driver links).2.countP (isWriteFor i) = 0 ∧
    (∀ q ∈ (Gui.run il sa gdriver glinks).1, q.1 = i → q.2 = ChapterOutcome.failed) ∧
    (Gui.run il sa gdriver glinks).2.countP (isWriteFor i) = 0 := by
  have hfail : ∀ a, Cli.attempt il sa i (driver i a) = none := by
    intro a
    rcases hv : driver i a with _ | pv
    · rfl
    · have hc := hcli a pv hv
      rcases pv with ⟨t?, c?⟩
      change c? = none at hc
      subst hc
      rcases t? with _ | tv <;> rfl
  have hchap := chapterLoop_allFail il sa (driver i) i hfail rt 1
  have hgstep : Gui.step il sa i (gdriver i) = (ChapterOutcome.failed, [Ev.nav i 1]) := by
    rcases hv : gdriver i with _ | pv
    · rfl
    · have hc := hgui pv hv
      rcases pv with ⟨t?, c?⟩
      change c? = none at hc
      subst hc
      rcases t? with _ | tv <;> rfl
  refine ⟨?_, ?_, ?_, ?_⟩
  · intro q hq hqi
    rw [show (Cli.run il sa rt driver links).1 = (Cli.runLinks il sa rt driver 1 links).1
        from rfl, runLinks_results il sa rt driver links 1] at hq
    obtain ⟨j, hj, rfl⟩ := List.mem_map.mp hq
    dsimp only at hqi ⊢
    subst hqi
    exact hchap.1
  · rw [show (Cli.run il sa rt driver links).2 = (Cli.runLinks il sa rt driver 1 links).2
        from rfl]
    refine runLinks_countP_zero_all il sa rt driver (isWriteFor i) rfl ?_ links 1
    intro j
    by_cases hj : j = i
    · subst hj
      rw [List.countP_eq_zero]
      intro e he
      rw [writeFor_false_of_not_writeEv (hchap.2.2.2 e he)]
      exact Bool.false_ne_true
    · exact runChapter_countP_zero il sa rt (driver j) j (isWriteFor i)
        (fun e he => writeFor_not_other hj e (he.imp (fun h => h) (fun h => Or.inl h)))
  · intro q hq hqi
    rw [show (Gui.run il sa gdriver glinks).1 = (Gui.runLinks il sa gdriver 1 glinks).1
        from rfl, guiRunLinks_results il sa gdriver glinks 1] at hq
    obtain ⟨j, hj, rfl⟩ := List.mem_map.mp hq
    dsimp only at hqi ⊢
    subst hqi
    rw [hgstep]
  · rw [show (Gui.run il sa gdriver glinks).2 = (Gui.runLinks il sa gdriver 1 glinks).2
        from rfl]
    refine guiRunLinks_countP_zero il sa gdriver (isWriteFor i) ?_ glinks 1
    intro j
    by_cases hj : j = i
    · subst hj
      rw [hgstep]
      rfl
    · rw [List.countP_eq_zero]
      intro e he
      rw [writeFor_not_other hj e
        ((gui_step_ev il sa j (gdriver j) e he).imp (fun h => h) (fun h => Or.inr h))]
      exact Bool.false_ne_true

/-- Witness: one-link runs whose only page loads but has no content
element. -/
theorem c2_content_not_found_witness :
    (∀ q ∈ (Cli.run false true 2
        (fun _ _ => Visit.loaded ⟨some (some "T".toList), none⟩) ["u".toList]).1,
      q.1 = 1 → q.2.1 = ChapterOutcome.failed) ∧
    (Cli.run false true 2 (fun _ _ => Visit.loaded ⟨some (some "T".toList), none⟩)
        ["u".toList]).2.countP (isWriteFor 1) = 0 ∧
    (∀ q ∈ (Gui.run false true
        (fun _ => Visit.loaded ⟨some (some "T".toList), none⟩) ["u".toList]).1,
      q.1 = 1 → q.2 = ChapterOutcome.failed) ∧
    (Gui.run false true (fun _ => Visit.loaded ⟨some (some "T".toList), none⟩)
        ["u".toList]).2.countP (isWriteFor 1) = 0 :=
  c2_content_not_found false true 2
    (fun _ _ => Visit.loaded ⟨some (some "T".toList), none⟩)
    (fun _ => Visit.loaded ⟨some (some "T".toList), none⟩) ["u".toList] ["u".toList] 1
    (fun a pv h => by injection h with h'; rw [← h'])
    (fun pv h => by injection h with h'; rw [← h'])

/-- **C3** (counterexample): with `strip_ads = true`, `clean_text` is not
idempotent — removing the `Sponsored Content` occurrence splices together a
fresh `Ads by …` match that only a second pass removes, so the claimed
idempotence fails for that flag combination. -/
theorem c3_counterexample :
    clean_text (clean_text "Ads bSponsored Contenty W".toList false true) false true ≠
      clean_text "Ads bSponsored Contenty W".toList false true := by decide

/-- **C4** (amended): link resolution drops null and empty hrefs, keeps
source order with 1-based indices, and on the spec's concrete example it
yields exactly the expected pairs; however the code joins a href against
the TOC scheme+host origin iff it does not start with the literal `"http"`
— not iff it is relative — so a relative href such as `"httpx"` is kept
verbatim. -/
theorem c4_link_resolution :
    (∀ (toc : List Char) (raw : List (Option (List Char))) (k : Nat),
      (List.enumFrom 1 (resolveLinks toc raw))[k]? =
        (((raw.filterMap id).filter (fun l => !l.isEmpty))[k]?).map
          (fun l => (1 + k,
            if "http".toList.isPrefixOf l then l
            else urljoin (urlScheme toc ++ "://".toList ++ urlHost toc) l))) ∧
    List.enumFrom 1 (resolveLinks "https://ex.test".toList
        [some "/c/1".toList, some "https://ex.test/c/2".toList, some [], none]) =
      [(1, "https://ex.test/c/1".toList), (2, "https://ex.test/c/2".toList)] := by
  constructor
  · intro toc raw k
    rw [show resolveLinks toc raw =
        ((raw.filterMap id).filter (fun l => !l.isEmpty)).map (fun l =>
          if "http".toList.isPrefixOf l then l
          else urljoin (urlScheme toc ++ "://".toList ++ urlHost toc) l) from rfl]
    rw [List.getElem?_enumFrom, List.getElem?_map]
    cases ((raw.filterMap id).filter (fun l => !l.isEmpty))[k]? <;> rfl
  · decide

/-- **C4** (counterexample): the relative href `"httpx"` is kept verbatim by
the code's `startswith("http")` test, while resolving it as a relative
reference — the spec's reading — would join it against the TOC origin. -/
theorem c4_counterexample :
    resolveLinks "https://ex.test".toList [some "httpx".toList] = ["httpx".toList] ∧
    resolveLinksSpec "https://ex.test".toList [some "httpx".toList] =
      ["https://ex.test/httpx".toList] ∧
    resolveLinks "https://ex.test".toList [some "httpx".toList] ≠
      resolveLinksSpec "https://ex.test".toList [some "httpx".toList] := by decide

/-- **C5** (amended): in the CLI pipeline one pacing sleep runs after every
chapter's terminal outcome, unconditionally, so the pace count equals the
number of links; in the GUI pipeline the pacing sleep sits inside the
success branch, so the pace count equals the number of extracted chapters
and a failed chapter proceeds to the next link without pacing. -/
theorem c5_pacing (il sa : Bool) (rt : Nat) (d : Nat → Nat → Visit)
    (g : Nat → Visit) (links glinks : List (List Char)) :
    (Cli.run il sa rt d links).2.countP isPaceEv = links.length ∧
    (Gui.run il sa g glinks).2.countP isPaceEv =
      (Gui.run il sa g glinks).1.countP (fun q => isExtractedB q.2) :=
  ⟨runLinks_paceCount il sa rt d links 1, guiRunLinks_paceCount il sa g glinks 1⟩

/-- **C5** (counterexample): a two-link GUI run whose first chapter times
out reaches a terminal outcome for both chapters but sleeps only once, not
once per chapter as the claim requires. -/
theorem c5_counterexample :
    (Gui.run false true
        (fun i => if i = 1 then Visit.timeout
          else Visit.loaded ⟨some (some "T".toList), some (some "Body".toList)⟩)
        ["u1".toList, "u2".toList]).2.countP isPaceEv = 1 ∧
    ["u1".toList, "u2".toList].length = 2 ∧
    (1 : Nat) ≠ 2 := by decide

/-- **C6** (amended): the CLI validates the TOC URL before any navigation —
it proceeds (and navigates only the TOC URL) iff the scheme is http or
https and the host is nonempty, and exits with no navigation otherwise; the
GUI's pre-navigation check instead only requires the stripped URL to be
nonempty and start with the literal `"http"`, so it also lets schemes such
as `httpx` proceed. -/
theorem c6_validation (toc : List Char) :
    (Cli.mainStart toc = (StartOutcome.proceed, [toc]) ↔
      ((urlScheme toc = "http".toList ∨ urlScheme toc = "https".toList) ∧
        urlHost toc ≠ [])) ∧
    (Cli.mainStart toc = (StartOutcome.exitInvalid, []) ↔
      ¬((urlScheme toc = "http".toList ∨ urlScheme toc = "https".toList) ∧
        urlHost toc ≠ [])) ∧
    (Gui.launchBrowser toc = (StartOutcome.proceed, [pyStrip toc]) ↔
      (pyStrip toc ≠ [] ∧ "http".toList.isPrefixOf (pyStrip toc) = true)) := by
  have hiff : is_valid_url toc = true ↔
      ((urlScheme toc = "http".toList ∨ urlScheme toc = "https".toList) ∧
        urlHost toc ≠ []) := by
    unfold is_valid_url
    rw [Bool.and_eq_true, Bool.or_eq_true, Bool.not_eq_true', List.isEmpty_eq_false,
      decide_eq_true_eq, decide_eq_true_eq]
  have hGiff : Gui.validateTocUrl toc = true ↔
      (pyStrip toc ≠ [] ∧ "http".toList.isPrefixOf (pyStrip toc) = true) := by
    unfold Gui.validateTocUrl
    rw [Bool.and_eq_true, Bool.not_eq_true', List.isEmpty_eq_false]
  refine ⟨?_, ?_, ?_⟩
  · unfold Cli.mainStart
    by_cases h : is_valid_url toc = true
    · rw [if_pos h]
      constructor
      · intro _; exact hiff.mp h
      · intro _; rfl
    · rw [if_neg h]
      constructor
      · intro he; exact StartOutcome.noConfusion (congrArg Prod.fst he)
      · intro hp; exact absurd (hiff.mpr hp) h
  · unfold Cli.mainStart
    by_cases h : is_valid_url toc = true
    · rw [if_pos h]
      constructor
      · intro he; exact StartOutcome.noConfusion (congrArg Prod.fst he)
      · intro hn; exact absurd (hiff.mp h) hn
    · rw [if_neg h]
      constructor
      · intro _; exact fun hp => h (hiff.mpr hp)
      · intro _; rfl
  · unfold Gui.launchBrowser
    by_cases h : Gui.validateTocUrl toc = true
    · rw [if_pos h]
      constructor
      · intro _; exact hGiff.mp h
      · intro _; rfl
    · rw [if_neg h]
      constructor
      · intro he; exact StartOutcome.noConfusion (congrArg Prod.fst he)
      · intro hp; exact absurd (hGiff.mpr hp) h

/-- **C6** (counterexample): the GUI proceeds to navigate `"httpx://h"`
although its scheme is neither http nor https, because its check is only
`startswith("http")` on the stripped URL. -/
theorem c6_counterexample :
    Gui.launchBrowser "httpx://h".toList = (StartOutcome.proceed, ["httpx://h".toList]) ∧
    urlScheme "httpx://h".toList ≠ "http".toList ∧
    urlScheme "httpx://h".toList ≠ "https".toList ∧
    is_valid_url "httpx://h".toList = false := by decide

/-- **C7** (amended): the CLI sanitizer's starred character class collapses
each maximal run of reserved characters to a single underscore, but the GUI
sanitizer's unstarred class replaces every reserved character with its own
underscore, so the two differ on consecutive reserved characters. -/
theorem c7_reserved_runs (a run b : List Char) (hrun : run ≠ [])
    (hres : ∀ c ∈ run, isReservedC c = true)
    (hlast : ∀ c ∈ a.getLast?, isReservedC c = false)
    (hhead : ∀ c ∈ b.head?, isReservedC c = false) :
    subReservedRun (a ++ run ++ b) = subReservedRun a ++ '_' :: subReservedRun b ∧
    subReservedChar (a ++ run ++ b) =
      subReservedChar a ++ run.map (fun _ => '_') ++ subReservedChar b ∧
    Cli.safe_filename "a||b".toList = "a_b".toList ∧
    Gui.safe_filename "a||b".toList = "a__b".toList :=
  ⟨subReservedRun_split a.length a run b le_rfl hrun hres hlast hhead,
   subReservedChar_split a run b hres, by decide, by decide⟩

/-- Witness: the run `"||"` between the non-reserved fragments `"x"` and
`"y"`. -/
theorem c7_reserved_runs_witness :
    subReservedRun ("x".toList ++ "||".toList ++ "y".toList) =
      subReservedRun "x".toList ++ '_' :: subReservedRun "y".toList ∧
    subReservedChar ("x".toList ++ "||".toList ++ "y".toList) =
      subReservedChar "x".toList ++ "||".toList.map (fun _ => '_') ++
        subReservedChar "y".toList ∧
    Cli.safe_filename "a||b".toList = "a_b".toList ∧
    Gui.safe_filename "a||b".toList = "a__b".toList :=
  c7_reserved_runs "x".toList "||".toList "y".toList (by decide) (by decide)
    (by intro c hc; simp at hc; subst hc; rfl)
    (by intro c hc; simp at hc; subst hc; rfl)

/-- **C7** (counterexample): on `"a||b"` the GUI sanitizer yields `"a__b"`
— one underscore per reserved character — not the single underscore per run
that the claim asserts for every input title. -/
theorem c7_counterexample :
    Gui.safe_filename "a||b".toList = "a__b".toList ∧
    Gui.safe_filename "a||b".toList ≠ "a_b".toList := by decide

theorem subReservedChar_mem {s : List Char} {c : Char} (h : c ∈ subReservedChar s) :
    c = '_' ∨ isReservedC c = false := by
  unfold subReservedChar at h
  obtain ⟨a, ha, hfa⟩ := List.mem_map.mp h
  by_cases hc : isReservedC a = true
  · rw [if_pos hc] at hfa; exact Or.inl hfa.symm
  · right; rw [if_neg hc] at hfa; rw [← hfa]; simpa using hc

/-- **C8**: both sanitizers produce a filename that is free of the reserved
characters `\ / : * ? " < > |`, has length at most 150, and is nonempty
(the literal `"untitled"` when everything is stripped away). -/
theorem c8_sanitizer_props (name : List Char) :
    ((Cli.safe_filename name).all (fun c => !isReservedC c) = true ∧
      (Cli.safe_filename name).length ≤ 150 ∧ Cli.safe_filename name ≠ []) ∧
    ((Gui.safe_filename name).all (fun c => !isReservedC c) = true ∧
      (Gui.safe_filename name).length ≤ 150 ∧ Gui.safe_filename name ≠ []) := by
  have huntitled : ∀ c ∈ "untitled".toList, isReservedC c = false := by decide
  refine ⟨⟨?_, ?_, ?_⟩, ⟨?_, ?_, ?_⟩⟩
  · rw [List.all_eq_true]
    intro c hc
    rw [show Cli.safe_filename name =
        (if subWsRun (subReservedRun (pyStrip (subCtl name))) = [] then "untitled".toList
          else subWsRun (subReservedRun (pyStrip (subCtl name)))).take 150 from rfl] at hc
    have hc' := List.take_subset 150 _ hc
    rw [Bool.not_eq_true']
    by_cases h0 : subWsRun (subReservedRun (pyStrip (subCtl name))) = []
    · rw [if_pos h0] at hc'
      exact huntitled c hc'
    · rw [if_neg h0] at hc'
      rcases subWsRun_mem hc' with h | h
      · subst h; rfl
      · rcases subReservedRun_mem h with h2 | h2
        · subst h2; rfl
        · exact h2
  · rw [show Cli.safe_filename name =
        (if subWsRun (subReservedRun (pyStrip (subCtl name))) = [] then "untitled".toList
          else subWsRun (subReservedRun (pyStrip (subCtl name)))).take 150 from rfl]
    exact List.length_take_le 150 _
  · rw [show Cli.safe_filename name =
        (if subWsRun (subReservedRun (pyStrip (subCtl name))) = [] then "untitled".toList
          else subWsRun (subReservedRun (pyStrip (subCtl name)))).take 150 from rfl]
    intro he
    rcases List.take_eq_nil_iff.mp he with h | h
    · exact absurd h (by decide)
    · by_cases h0 : subWsRun (subReservedRun (pyStrip (subCtl name))) = []
      · rw [if_pos h0] at h
        exact absurd h (by decide)
      · rw [if_neg h0] at h
        exact h0 h
  · rw [List.all_eq_true]
    intro c hc
    rw [show Gui.safe_filename name =
        (if subWsRun (subReservedChar (pyStrip (subCtl name))) = [] then "untitled".toList
          else (subWsRun (subReservedChar (pyStrip (subCtl name)))).take 150) from rfl] at hc
    rw [Bool.not_eq_true']
    by_cases h0 : subWsRun (subReservedChar (pyStrip (subCtl name))) = []
    · rw [if_pos h0] at hc
      exact huntitled c hc
    · rw [if_neg h0] at hc
      have hc' := List.take_subset 150 _ hc
      rcases subWsRun_mem hc' with h | h
      · subst h; rfl
      · rcases subReservedChar_mem h with h2 | h2
        · subst h2; rfl
        · exact h2
  · rw [show Gui.safe_filename name =
        (if subWsRun (subReservedChar (pyStrip (subCtl name))) = [] then "untitled".toList
          else (subWsRun (subReservedChar (pyStrip (subCtl name)))).take 150) from rfl]
    by_cases h0 : subWsRun (subReservedChar (pyStrip (subCtl name))) = []
    · rw [if_pos h0]; decide
    · rw [if_neg h0]
      exact List.length_take_le 150 _
  · rw [show Gui.safe_filename name =
        (if subWsRun (subReservedChar (pyStrip (subCtl name))) = [] then "untitled".toList
          else (subWsRun (subReservedChar (pyStrip (subCtl name)))).take 150) from rfl]
    by_cases h0 : subWsRun (subReservedChar (pyStrip (subCtl name))) = []
    · rw [if_pos h0]; decide
    · rw [if_neg h0]
      intro he
      rcases List.take_eq_nil_iff.mp he with h | h
      · exact absurd h (by decide)
      · exact h0 h

/-- **C9**: delay clamping is the same function in both implementations and
never rejects a configuration; for any uniform sample `u` drawn inside the
clamped window `[min', max']` with `min' = max 0 minDelay` and
`max' = max min' maxDelay`, the effective delay `max 0 u` equals `u` and
lies inside the window, and for the inverted configuration
`minDelay = 1, maxDelay = 1/2` the window degenerates to `[1, 1]`, so the
effective delay is exactly `1`. -/
theorem c9_delay_clamping (m M u : ℚ)
    (hu1 : (Cli.clampDelays m M).1 ≤ u) (hu2 : u ≤ (Cli.clampDelays m M).2) :
    Gui.clampDelays m M = Cli.clampDelays m M ∧
    (Cli.clampDelays m M).1 ≤ (Cli.clampDelays m M).2 ∧
    sleep_polite_delay u = u ∧
    (Cli.clampDelays m M).1 ≤ sleep_polite_delay u ∧
    sleep_polite_delay u ≤ (Cli.clampDelays m M).2 ∧
    (m = 1 → M = 1 / 2 → sleep_polite_delay u = 1) := by
  have h0u : (0 : ℚ) ≤ u := le_trans (le_max_left 0 m) hu1
  have hs : sleep_polite_delay u = u := max_eq_right h0u
  refine ⟨?_, le_max_left _ _, hs, by rw [hs]; exact hu1, by rw [hs]; exact hu2, ?_⟩
  · unfold Gui.clampDelays Cli.clampDelays
    have h1 : (if m < 0 then (0 : ℚ) else m) = max 0 m := by
      rcases lt_or_le m 0 with h | h
      · rw [if_pos h, max_eq_left h.le]
      · rw [if_neg (not_lt.mpr h), max_eq_right h]
    rw [h1]
    have h2 : (if M < max 0 m then max 0 m else M) = max (max 0 m) M := by
      rcases lt_or_le M (max 0 m) with h | h
      · rw [if_pos h, max_eq_left h.le]
      · rw [if_neg (not_lt.mpr h), max_eq_right h]
    rw [h2]
  · intro hm hM
    subst hm
    subst hM
    have hmax : Cli.clampDelays 1 (1 / 2) = (1, 1) := by
      unfold Cli.clampDelays
      rw [max_eq_right (by norm_num : (0 : ℚ) ≤ 1),
        max_eq_left (by norm_num : (1 : ℚ) / 2 ≤ 1)]
    rw [hmax] at hu1 hu2
    rw [hs]
    exact le_antisymm hu2 hu1

/-- Witness: the inverted configuration `minDelay = 1, maxDelay = 1/2` with
the (forced) uniform sample `1`. -/
theorem c9_delay_clamping_witness :
    Gui.clampDelays 1 (1 / 2) = Cli.clampDelays 1 (1 / 2) ∧
    (Cli.clampDelays 1 (1 / 2)).1 ≤ (Cli.clampDelays 1 (1 / 2)).2 ∧
    sleep_polite_delay 1 = 1 ∧
    (Cli.clampDelays 1 (1 / 2)).1 ≤ sleep_polite_delay 1 ∧
    sleep_polite_delay 1 ≤ (Cli.clampDelays 1 (1 / 2)).2 ∧
    ((1 : ℚ) = 1 → (1 / 2 : ℚ) = 1 / 2 → sleep_polite_delay 1 = 1) :=
  c9_delay_clamping 1 (1 / 2) 1
    (by rw [show (Cli.clampDelays 1 (1 / 2)).1 = max 0 1 from rfl]; simp)
    (by rw [show (Cli.clampDelays 1 (1 / 2)).2 = max (max 0 1) (1 / 2) from rfl]; simp)

/-- **C10**: both pipelines clean the body with
`remove_links = not include_links`: a successful CLI attempt and a
successful GUI step both save `clean_text body (!include_links) strip_ads`,
and on a body embedding a raw URL the URL is kept iff `include_links` is
true. -/
theorem c10_remove_links (il sa : Bool) (i : Nat) (t? b? : Option (List Char))
    (body : List Char) (hb : body ≠ []) :
    Cli.attempt il sa i (.loaded ⟨some t?, some b?⟩) =
      some (Cli.safe_filename (pyOrStr t? ("chapter_" ++ toString i).toList),
        clean_text (pyOrStr b? []) (!il) sa) ∧
    Gui.step il sa i (.loaded ⟨some t?, some (some body)⟩) =
      (.extracted (Gui.safe_filename (pyOrStr t? ("chapter_" ++ toString i).toList))
          (clean_text body (!il) sa),
       [.nav i 1,
        .writeChapter i (Gui.safe_filename (pyOrStr t? ("chapter_" ++ toString i).toList))
          (clean_text body (!il) sa),
        .writeCombined i (Gui.safe_filename (pyOrStr t? ("chapter_" ++ toString i).toList))
          (clean_text body (!il) sa),
        .paceSleep]) ∧
    clean_text "see https://x.ab now".toList (!true) false =
      "see https://x.ab now".toList ∧
    clean_text "see https://x.ab now".toList (!false) false = "see  now".toList := by
  refine ⟨rfl, ?_, by decide, by decide⟩
  rw [show Gui.step il sa i (.loaded ⟨some t?, some (some body)⟩) =
      if body = [] then (ChapterOutcome.failed, [Ev.nav i 1])
      else
        (.extracted (Gui.safe_filename (pyOrStr t? ("chapter_" ++ toString i).toList))
          (clean_text body (!il) sa),
         [.nav i 1,
          .writeChapter i (Gui.safe_filename (pyOrStr t? ("chapter_" ++ toString i).toList))
            (clean_text body (!il) sa),
          .writeCombined i (Gui.safe_filename (pyOrStr t? ("chapter_" ++ toString i).toList))
            (clean_text body (!il) sa),
          .paceSleep]) from rfl, if_neg hb]

/-- Witness: a loaded page with a null title element and body `"B"`. -/
theorem c10_remove_links_witness :
    Cli.attempt false false 1 (.loaded ⟨some none, some (some "B".toList)⟩) =
      some (Cli.safe_filename (pyOrStr none ("chapter_" ++ toString 1).toList),
        clean_text (pyOrStr (some "B".toList) []) (!false) false) ∧
    Gui.step false false 1 (.loaded ⟨some none, some (some "B".toList)⟩) =
      (.extracted (Gui.safe_filename (pyOrStr none ("chapter_" ++ toString 1).toList))
          (clean_text "B".toList (!false) false),
       [.nav 1 1,
        .writeChapter 1 (Gui.safe_filename (pyOrStr none ("chapter_" ++ toString 1).toList))
          (clean_text "B".toList (!false) false),
        .writeCombined 1 (Gui.safe_filename (pyOrStr none ("chapter_" ++ toString 1).toList))
          (clean_text "B".toList (!false) false),
        .paceSleep]) ∧
    clean_text "see https://x.ab now".toList (!true) false =
      "see https://x.ab now".toList ∧
    clean_text "see https://x.ab now".toList (!false) false = "see  now".toList :=
  c10_remove_links false false 1 none (some "B".toList) "B".toList (by decide)

end Toc
